import Mathlib

/-!
A shallow embedding of the LLM-output parsing, validation and de-duplication
pipeline of `src/routes/authRoutes.js` (test-case generation backend).

Modelling conventions:
- JavaScript strings are lists of characters (`JStr`); string indices are
  character positions.
- Parsed JSON values are the inductive `JVal`; JSON numbers are modelled as
  integers carrying their decimal representation.  `JSON.parse` itself is an
  external primitive and is passed in as an oracle `JStr → Option JVal`
  (`none` models a parse exception); theorems quantify over the oracle.
- JavaScript floating-point arithmetic on similarity scores is modelled as
  exact rational arithmetic with explicit fractions (`Frac`, compared by
  cross-multiplication); the source only ever forms small rationals
  (set cardinalities and tenths), where exact arithmetic and IEEE doubles
  agree on every comparison performed.
- Code that can throw a `TypeError` (string methods invoked on a non-string,
  property access on `null`/`undefined`) returns `Except Unit _`;
  `try`/`catch` in the source is modelled by matching on the `Except`.
-/

/-- JavaScript strings modelled as lists of characters. -/
abbrev JStr := List Char

/-- Model of `String.prototype.toLowerCase`. -/
def jsToLower (s : JStr) : JStr := s.map Char.toLower

/-- Model of `String.prototype.trim`: drop whitespace from both ends. -/
def jsTrim (s : JStr) : JStr :=
  ((s.dropWhile Char.isWhitespace).reverse.dropWhile Char.isWhitespace).reverse

/-- Auxiliary bound used by the termination proofs of the regex scanners. -/
theorem dropWhile_length_le (p : Char → Bool) (l : List Char) :
    (l.dropWhile p).length ≤ l.length := by
  induction l with
  | nil => simp [List.dropWhile]
  | cons c cs ih =>
    by_cases h : p c
    · simp [List.dropWhile, h]; omega
    · simp [List.dropWhile, h]

/-- Model of `String.prototype.split(sep)` with a single-character separator:
splits at every occurrence, keeping empty pieces. -/
def jsSplitChar (sep : Char) : JStr → List JStr
  | [] => [[]]
  | c :: cs =>
    if c = sep then [] :: jsSplitChar sep cs
    else
      match jsSplitChar sep cs with
      | [] => [[c]]
      | t :: ts => (c :: t) :: ts

mutual

/-- Worker for `String.prototype.split(/\s+/)` while reading a piece
(`buf` holds its characters in reverse): a whitespace character ends the
piece and enters separator-skipping mode. -/
def jsSplitWSGo (buf : JStr) : JStr → List JStr
  | [] => [buf.reverse]
  | c :: cs =>
    if c.isWhitespace then buf.reverse :: jsSplitWSSkip cs
    else jsSplitWSGo (c :: buf) cs

/-- Worker for `String.prototype.split(/\s+/)` while inside a separator run;
a run that reaches the end of the text contributes a final empty piece, as in
JavaScript. -/
def jsSplitWSSkip : JStr → List JStr
  | [] => [[]]
  | c :: cs =>
    if c.isWhitespace then jsSplitWSSkip cs
    else jsSplitWSGo [c] cs

end

/-- Model of `String.prototype.split(/\s+/)`: maximal whitespace runs are separators;
a leading or trailing run contributes an empty piece. -/
def jsSplitWS (s : JStr) : List JStr := jsSplitWSGo [] s

/-- Worker for `replace(/\s+/g, ' ')`: `inRun` records whether the previous
character belonged to a whitespace run that has already emitted its single
space. -/
def collapseWSGo (inRun : Bool) : JStr → JStr
  | [] => []
  | c :: cs =>
    if c.isWhitespace then
      if inRun then collapseWSGo true cs else ' ' :: collapseWSGo true cs
    else c :: collapseWSGo false cs

/-- Model of `replace(/\s+/g, ' ')`: collapse each whitespace run to one space. -/
def collapseWS (s : JStr) : JStr := collapseWSGo false s

/-- A JavaScript word character (`\w` = `[A-Za-z0-9_]`). -/
def isWordChar (c : Char) : Bool := c.isAlphanum || c = '_'

/-- Model of `replace(/[^\w\s]/g, ' ')`: non-word, non-space characters become spaces. -/
def stripPunct (s : JStr) : JStr :=
  s.map (fun c => if isWordChar c || c.isWhitespace then c else ' ')

/-- Length of a match of `/step \d+\./` at the head of the list (0 = no
match).  With a greedy `\d+` followed by a mandatory `.`, the regex matches
here exactly when the maximal digit run after `"step "` is non-empty and is
followed by a dot. -/
def stepMatchLen (l : JStr) : Nat :=
  match l with
  | 's' :: 't' :: 'e' :: 'p' :: ' ' :: rest =>
    let ds := rest.takeWhile Char.isDigit
    if ds.isEmpty then 0
    else
      match rest.drop ds.length with
      | '.' :: _ => 5 + ds.length + 1
      | _ => 0
  | _ => 0

/-- Worker for `replace(/step \d+\./g, '')`; the fuel argument only bounds
the recursion and starts at the length of the text, which suffices because
every step consumes at least one character. -/
def removeStepNumsGo : Nat → JStr → JStr
  | 0, _ => []
  | _ + 1, [] => []
  | fuel + 1, c :: cs =>
    let n := stepMatchLen (c :: cs)
    if n = 0 then c :: removeStepNumsGo fuel cs
    else removeStepNumsGo fuel ((c :: cs).drop n)

/-- Model of `replace(/step \d+\./g, '')`: remove step-number markers, scanning left
to right and continuing after each removed match. -/
def removeStepNums (s : JStr) : JStr := removeStepNumsGo s.length s

/-- Length of a match of `/\d+\./` at the head of the list (0 = no match). -/
def numDotMatchLen (l : JStr) : Nat :=
  let ds := l.takeWhile Char.isDigit
  if ds.isEmpty then 0
  else
    match l.drop ds.length with
    | '.' :: _ => ds.length + 1
    | _ => 0

/-- Worker for `replace(/\d+\./g, '')`, fuelled like `removeStepNumsGo`. -/
def removeNumDotsGo : Nat → JStr → JStr
  | 0, _ => []
  | _ + 1, [] => []
  | fuel + 1, c :: cs =>
    let n := numDotMatchLen (c :: cs)
    if n = 0 then c :: removeNumDotsGo fuel cs
    else removeNumDotsGo fuel ((c :: cs).drop n)

/-- Model of `replace(/\d+\./g, '')`: remove numbered-list markers. -/
def removeNumDots (s : JStr) : JStr := removeNumDotsGo s.length s

/-- Length of a match of ``/```json\s*/`` at the head of the list. -/
def fenceJsonMatchLen (l : JStr) : Nat :=
  match l with
  | '`' :: '`' :: '`' :: 'j' :: 's' :: 'o' :: 'n' :: rest =>
    7 + (rest.takeWhile Char.isWhitespace).length
  | _ => 0

/-- Worker for ``replace(/```json\s*/g, '')``, fuelled like
`removeStepNumsGo`. -/
def stripFenceJsonGo : Nat → JStr → JStr
  | 0, _ => []
  | _ + 1, [] => []
  | fuel + 1, c :: cs =>
    let n := fenceJsonMatchLen (c :: cs)
    if n = 0 then c :: stripFenceJsonGo fuel cs
    else stripFenceJsonGo fuel ((c :: cs).drop n)

/-- Model of ``replace(/```json\s*/g, '')``. -/
def stripFenceJson (s : JStr) : JStr := stripFenceJsonGo s.length s

/-- Length of a match of ``/```\s*/`` at the head of the list. -/
def fenceMatchLen (l : JStr) : Nat :=
  match l with
  | '`' :: '`' :: '`' :: rest => 3 + (rest.takeWhile Char.isWhitespace).length
  | _ => 0

/-- Worker for ``replace(/```\s*/g, '')``, fuelled like `removeStepNumsGo`. -/
def stripFencePlainGo : Nat → JStr → JStr
  | 0, _ => []
  | _ + 1, [] => []
  | fuel + 1, c :: cs =>
    let n := fenceMatchLen (c :: cs)
    if n = 0 then c :: stripFencePlainGo fuel cs
    else stripFencePlainGo fuel ((c :: cs).drop n)

/-- Model of ``replace(/```\s*/g, '')``. -/
def stripFencePlain (s : JStr) : JStr := stripFencePlainGo s.length s

/-- The code-fence cleanup performed by both parsers:
``text.replace(/```json\s*/g, '').replace(/```\s*/g, '').trim()``. -/
def stripFences (t : JStr) : JStr := jsTrim (stripFencePlain (stripFenceJson t))

/-- Worker for `replace(/,(\s*[}\]])/g, '$1')`, fuelled like
`removeStepNumsGo`: a comma followed by optional whitespace and a closing
bracket is dropped (the captured whitespace and bracket are kept) and the
scan resumes after the match. -/
def fixTrailingCommasGo : Nat → JStr → JStr
  | 0, _ => []
  | _ + 1, [] => []
  | fuel + 1, c :: cs =>
    if c = ',' then
      let ws := cs.takeWhile Char.isWhitespace
      match cs.drop ws.length with
      | b :: rest =>
        if b = '}' || b = ']' then ws ++ b :: fixTrailingCommasGo fuel rest
        else ',' :: fixTrailingCommasGo fuel cs
      | [] => ',' :: fixTrailingCommasGo fuel cs
    else c :: fixTrailingCommasGo fuel cs

/-- Model of `replace(/,(\s*[}\]])/g, '$1')`: drop a comma standing before a closing
bracket (with optional whitespace in between). -/
def fixTrailingCommas (s : JStr) : JStr := fixTrailingCommasGo s.length s

/-- Model of `replace(/x/g, '\\x')` for a literal control character `target`, writing
a backslash followed by `rep` (used for `\n`, `\r`, `\t`). -/
def escapeChar (target rep : Char) : JStr → JStr
  | [] => []
  | c :: cs =>
    if c = target then '\\' :: rep :: escapeChar target rep cs
    else c :: escapeChar target rep cs

/-- Strategy 2 of the test-case parser: strip trailing commas, then escape
literal newlines, carriage returns and tabs. -/
def fixJson (s : JStr) : JStr :=
  escapeChar '\t' 't' (escapeChar '\r' 'r' (escapeChar '\n' 'n' (fixTrailingCommas s)))

/-- Model of `replace(/\\n/g, '\n')`: turn a two-character backslash-n sequence into a
newline (used on manually extracted field values). -/
def unescapeBackslashN : JStr → JStr
  | '\\' :: 'n' :: rest => '\n' :: unescapeBackslashN rest
  | c :: cs => c :: unescapeBackslashN cs
  | [] => []

/-- Model of `indexOf(c)` as an optional position (JavaScript returns `-1` when
absent). -/
def indexOfChar (l : JStr) (c : Char) : Option Nat := l.findIdx? (· = c)

/-- Model of `lastIndexOf(c)` as an optional position. -/
def lastIndexOfChar (l : JStr) (c : Char) : Option Nat :=
  (l.reverse.findIdx? (· = c)).map (fun i => l.length - 1 - i)

/-- Model of `substring(s, e)`: the characters at positions `[s, e)`. -/
def jsSubstring (l : JStr) (s e : Nat) : JStr := (l.take e).drop s

/-- Worker for `dedupFirst`: `seen` holds the elements already emitted. -/
def dedupFirstGo (seen : List JStr) : List JStr → List JStr
  | [] => []
  | a :: as =>
    if seen.contains a then dedupFirstGo seen as
    else a :: dedupFirstGo (seen ++ [a]) as

/-- Building a JS `Set` from a list keeps the first occurrence of each
element; only cardinality and membership of the result are used. -/
def dedupFirst (l : List JStr) : List JStr := dedupFirstGo [] l

/-- Does `hay` start with `needle`? -/
def jsStartsWith : JStr → JStr → Bool
  | [], _ => true
  | _ :: _, [] => false
  | n :: ns, h :: hs => n = h && jsStartsWith ns hs

/-- Model of `String.prototype.includes(needle)`: substring containment. -/
def jsIncludes (needle : JStr) : JStr → Bool
  | [] => needle.isEmpty
  | c :: cs => jsStartsWith needle (c :: cs) || jsIncludes needle cs

/-- Exact rational arithmetic for similarity scores: a fraction kept
unnormalized, compared by cross-multiplication.  All scores produced by the
pipeline are non-negative, so numerator and denominator are naturals.
`Frac.mk 0 0` models the `0/0 = NaN` that JavaScript produces in
`calculateSimpleSimilarity` on two empty word sets: every strict comparison
against it is false, exactly as for `NaN`. -/
structure Frac where
  num : Nat
  den : Nat
deriving DecidableEq

/-- Strict `>` on scores (`a > b`), by cross-multiplication. -/
def fracGtF (a b : Frac) : Bool := b.num * a.den < a.num * b.den

/-- Non-strict `≤` on scores, by cross-multiplication. -/
def fracLeF (a b : Frac) : Bool := a.num * b.den ≤ b.num * a.den

/-- Non-strict `≥` on scores, by cross-multiplication. -/
def fracGeF (a b : Frac) : Bool := b.num * a.den ≤ a.num * b.den

/-- Addition of scores. -/
def fracAdd (a b : Frac) : Frac := ⟨a.num * b.den + b.num * a.den, a.den * b.den⟩

/-- Model of `Math.min` on scores. -/
def fracMin (a b : Frac) : Frac := if fracLeF a b then a else b

/-- Decimal representation of a natural number (JavaScript number-to-string
inside a template literal, for the integers this pipeline produces). -/
def natStr (n : Nat) : JStr := (Nat.repr n).data

/-- A parsed JSON value / JavaScript value flowing through the pipeline.
`undef` is JavaScript `undefined` (absent property); numbers are modelled as
integers. -/
inductive JVal where
  | null
  | undef
  | bool (b : Bool)
  | num (n : Int)
  | str (s : JStr)
  | arr (elems : List JVal)
  | obj (fields : List (JStr × JVal))

/-- JavaScript truthiness of a value. -/
def JVal.truthy : JVal → Bool
  | .null => false
  | .undef => false
  | .bool b => b
  | .num n => n != 0
  | .str s => !s.isEmpty
  | .arr _ => true
  | .obj _ => true

/-- Model of `a || b` on JavaScript values. -/
def jsOr (a b : JVal) : JVal := if a.truthy then a else b

mutual

/-- Stringification used by `Array.prototype.join`: `null`/`undefined` become
empty, nested arrays are comma-joined, objects print as `[object Object]`. -/
def JVal.toJoinStr : JVal → JStr
  | .null => []
  | .undef => []
  | .bool b => if b then "true".data else "false".data
  | .num n => (Int.repr n).data
  | .str s => s
  | .arr es => List.intercalate ",".data (JVal.toJoinStrList es)
  | .obj _ => "[object Object]".data

/-- Stringification of each element of an array, in order. -/
def JVal.toJoinStrList : List JVal → List JStr
  | [] => []
  | v :: vs => v.toJoinStr :: JVal.toJoinStrList vs

end

/-- Model of `steps.join('\n')`. -/
def joinNL (es : List JVal) : JStr := List.intercalate "\n".data (es.map JVal.toJoinStr)

/-- Lookup of key `k` in an object's field list (`undefined` when absent). -/
def objGet (fs : List (JStr × JVal)) (k : JStr) : JVal :=
  match fs.find? (fun p => p.1 = k) with
  | some p => p.2
  | none => JVal.undef

/-- Property access `v[k]`: throws a `TypeError` on `null`/`undefined`,
returns `undefined` on primitives and on objects lacking the key. -/
def getProp : JVal → JStr → Except Unit JVal
  | .null, _ => .error ()
  | .undef, _ => .error ()
  | .obj fs, k => .ok (objGet fs k)
  | _, _ => .ok JVal.undef

/-- Invoking a string method (`toLowerCase` etc.) on a value: succeeds only
on strings, otherwise throws a `TypeError`. -/
def asStr : JVal → Except Unit JStr
  | .str s => .ok s
  | _ => .error ()

/-- The record shape produced by the cleaning/normalization stage shared by
`validateAndCleanTestCases` and `validateAndCleanTestCasesEnhanced`.  Fields
remain JavaScript values: the stage itself does not force them to strings. -/
structure CleanedTC where
  id : JVal
  module : JVal
  submodule : JVal
  summary : JVal
  testSteps : JVal
  expectedResults : JVal
  testCaseType : JVal
  environment : JVal
  status : JVal

/-- The record shape produced by `validateAndCleanTestScenarios`. -/
structure ScenarioRec where
  id : JVal
  module : JVal
  condition : JVal
  testScenarios : JVal
  status : JVal

/-- HELPER `createStepsSignature`: lower-case, strip step numbering and
numbered lists, replace punctuation by spaces, collapse whitespace, trim. -/
def createStepsSignature (testSteps : JStr) : JStr :=
  jsTrim (collapseWS (stripPunct (removeNumDots (removeStepNums (jsToLower testSteps)))))

/-- The fixed keyword vocabulary of `extractTestPurpose`. -/
def purposeKeywords : List JStr :=
  ["verify".data, "validate".data, "test".data, "check".data, "ensure".data,
   "confirm".data, "login".data, "create".data, "update".data, "delete".data,
   "search".data, "upload".data, "download".data, "submit".data, "cancel".data,
   "save".data, "edit".data, "view".data]

/-- HELPER `extractTestPurpose`: the first five words of the lower-cased
summary that are purpose keywords or longer than four characters. -/
def extractTestPurpose (summary : JStr) : JStr :=
  let words := jsSplitWS (jsToLower summary)
  let purposeWords := words.filter (fun w => purposeKeywords.contains w || w.length > 4)
  List.intercalate " ".data (purposeWords.take 5)

/-- The fixed action-word vocabulary of `calculateAdvancedSimilarity`. -/
def actionWords : List JStr :=
  ["login".data, "create".data, "update".data, "delete".data,
   "verify".data, "validate".data]

/-- HELPER `calculateAdvancedSimilarity`: token-set Jaccard over tokens longer
than 3 characters, plus a flat 0.1 bonus per action word contained (as a
substring) in both signatures, capped at 1. -/
def calculateAdvancedSimilarity (str1 str2 : JStr) : Frac :=
  let words1 := (jsSplitChar ' ' str1).filter (fun w => w.length > 3)
  let words2 := (jsSplitChar ' ' str2).filter (fun w => w.length > 3)
  if words1.length = 0 || words2.length = 0 then ⟨0, 1⟩
  else
    let set1 := dedupFirst words1
    let set2 := dedupFirst words2
    let intersection := set1.filter (fun x => set2.contains x)
    let union := dedupFirst (set1 ++ set2)
    let jaccardSimilarity : Frac := ⟨intersection.length, union.length⟩
    let actionPenalty := actionWords.foldl
      (fun acc action =>
        if jsIncludes action str1 && jsIncludes action str2 then fracAdd acc ⟨1, 10⟩
        else acc) ⟨0, 1⟩
    fracMin (fracAdd jaccardSimilarity actionPenalty) ⟨1, 1⟩

/-- HELPER `calculatePurposeSimilarity`: shared words over total distinct
words of the two purpose signatures; 0 when either is empty. -/
def calculatePurposeSimilarity (purpose1 purpose2 : JStr) : Frac :=
  if purpose1.isEmpty || purpose2.isEmpty then ⟨0, 1⟩
  else
    let words1 := jsSplitChar ' ' purpose1
    let words2 := jsSplitChar ' ' purpose2
    let commonWords := words1.filter (fun w => words2.contains w)
    let totalWords := (dedupFirst (words1 ++ words2)).length
    ⟨commonWords.length, totalWords⟩

/-- Helper `calculateSimpleSimilarity`: plain token-set Jaccard over tokens
longer than 3 characters, with no emptiness guard (`0/0` on two empty sets,
JavaScript `NaN`). -/
def calculateSimpleSimilarity (str1 str2 : JStr) : Frac :=
  let words1 := (jsSplitChar ' ' str1).filter (fun w => w.length > 3)
  let words2 := (jsSplitChar ' ' str2).filter (fun w => w.length > 3)
  let set1 := dedupFirst words1
  let set2 := dedupFirst words2
  let intersection := set1.filter (fun x => set2.contains x)
  let union := dedupFirst (set1 ++ set2)
  ⟨intersection.length, union.length⟩

/-- The steps value the cleaning map computes for an object candidate:
`tc.testSteps || tc.steps`, with an array joined by newlines. -/
def stepsVal (fs : List (JStr × JVal)) : JVal :=
  match (if (objGet fs "testSteps".data).truthy then objGet fs "testSteps".data
         else objGet fs "steps".data) with
  | .arr es => .str (joinNL es)
  | v => v

/-- One candidate through the cleaning map of `validateAndCleanTestCases` /
`validateAndCleanTestCasesEnhanced` (they share this code verbatim):
coalesce `testSteps`/`steps`, join array-typed steps with newlines, fill
defaults, synthesize `PC_<index+1>` ids and `Test Case <index+1>` summaries. -/
def cleanOne (index : Nat) (tc : JVal) : Except Unit CleanedTC := do
  let ts ← getProp tc "testSteps".data
  let steps0 ← if ts.truthy then pure ts else getProp tc "steps".data
  let steps : JVal :=
    match steps0 with
    | .arr es => .str (joinNL es)
    | v => v
  let idv ← getProp tc "id".data
  let modv ← getProp tc "module".data
  let subv ← getProp tc "submodule".data
  let sumv ← getProp tc "summary".data
  let titlev ← getProp tc "title".data
  let erv ← getProp tc "expectedResults".data
  let erv2 ← getProp tc "expectedResult".data
  let tctv ← getProp tc "testCaseType".data
  let envv ← getProp tc "environment".data
  let stv ← getProp tc "status".data
  .ok { id := jsOr idv (.str ("PC_".data ++ natStr (index + 1))),
        module := jsOr modv (.str []),
        submodule := jsOr subv (.str []),
        summary := jsOr sumv (jsOr titlev (.str ("Test Case ".data ++ natStr (index + 1)))),
        testSteps := jsOr steps (.str []),
        expectedResults := jsOr erv (jsOr erv2 (.str [])),
        testCaseType := jsOr tctv (.str "Positive".data),
        environment := jsOr envv (.str "Test".data),
        status := jsOr stv (.str "Not Tested".data) }

/-- The `.map(...)` part of the cleaning stage, with the running index. -/
def cleanList (index : Nat) : List JVal → Except Unit (List CleanedTC)
  | [] => .ok []
  | tc :: rest => do
    let c ← cleanOne index tc
    let cs ← cleanList (index + 1) rest
    .ok (c :: cs)

/-- The cleaning/normalization stage shared by both validators:
`.map(...)` with index, then `.filter(tc => tc.summary)`. -/
def cleanStage (testCases : List JVal) : Except Unit (List CleanedTC) := do
  let cleaned ← cleanList 0 testCases
  .ok (cleaned.filter (fun tc => tc.summary.truthy))

/-- State of the enhanced duplicate filter: the three accumulating seen-sets
and the accepted records.  JavaScript `Set`s are modelled as lists; only
membership and existential iteration are used, so duplicates are harmless. -/
structure DState where
  seenSummaries : List JStr
  seenSteps : List JStr
  seenPurposes : List JStr
  uniqueCases : List CleanedTC

/-- Seeding of the seen-sets from one existing test case
(`allExistingCases.forEach` in `validateAndCleanTestCasesEnhanced`). -/
def seedOne (st : DState) (tc : CleanedTC) : Except Unit DState := do
  let summary ← asStr tc.summary
  let steps ← asStr tc.testSteps
  .ok { seenSummaries := st.seenSummaries ++ [jsTrim (jsToLower summary)],
        seenSteps := st.seenSteps ++ [createStepsSignature steps],
        seenPurposes := st.seenPurposes ++ [extractTestPurpose summary],
        uniqueCases := st.uniqueCases }

/-- Seeding of the seen-sets from all existing test cases, in order. -/
def seedAll (st : DState) : List CleanedTC → Except Unit DState
  | [] => .ok st
  | tc :: rest => do
    let st' ← seedOne st tc
    seedAll st' rest

/-- Check 4 of the enhanced filter: scan the accepted batch records for one
whose steps signature is `> 0.70`-similar or whose purpose is
`> 0.70`-similar, recomputing both signatures from the stored record and
stopping at the first hit. -/
def check4 (sig purpose : JStr) : List CleanedTC → Except Unit Bool
  | [] => .ok false
  | u :: us => do
    let usteps ← asStr u.testSteps
    if fracGtF (calculateAdvancedSimilarity sig (createStepsSignature usteps)) ⟨70, 100⟩ then
      .ok true
    else do
      let usummary ← asStr u.summary
      if fracGtF (calculatePurposeSimilarity purpose (extractTestPurpose usummary)) ⟨70, 100⟩ then
        .ok true
      else check4 sig purpose us

/-- One record through the enhanced duplicate filter (`cleaned.forEach` body):
reject on exact summary match, `> 0.75` steps-signature similarity against
the seen set, `> 0.70` purpose similarity against the seen set, or `> 0.70`
steps/purpose similarity against an already accepted batch record; otherwise
accept and extend all seen sets. -/
def dedupStepE (st : DState) (tc : CleanedTC) : Except Unit DState := do
  let summary ← asStr tc.summary
  let steps ← asStr tc.testSteps
  let summaryKey := jsTrim (jsToLower summary)
  let stepsSignature := createStepsSignature steps
  let testPurpose := extractTestPurpose summary
  if st.seenSummaries.contains summaryKey then .ok st
  else if st.seenSteps.any
      (fun es => fracGtF (calculateAdvancedSimilarity stepsSignature es) ⟨75, 100⟩) then
    .ok st
  else if st.seenPurposes.any
      (fun ep => fracGtF (calculatePurposeSimilarity testPurpose ep) ⟨70, 100⟩) then
    .ok st
  else do
    let dup ← check4 stepsSignature testPurpose st.uniqueCases
    if dup then .ok st
    else
      .ok { seenSummaries := st.seenSummaries ++ [summaryKey],
            seenSteps := st.seenSteps ++ [stepsSignature],
            seenPurposes := st.seenPurposes ++ [testPurpose],
            uniqueCases := st.uniqueCases ++ [tc] }

/-- The enhanced duplicate filter applied to the whole cleaned batch. -/
def dedupEnhancedList (st : DState) : List CleanedTC → Except Unit DState
  | [] => .ok st
  | tc :: rest => do
    let st' ← dedupStepE st tc
    dedupEnhancedList st' rest

/-- ENHANCED `validateAndCleanTestCasesEnhanced(testCases, existingTestCases)`:
clean and normalize the candidates, seed the seen-sets from the existing
records, then run the multi-level duplicate detection. -/
def validateAndCleanTestCasesEnhanced (testCases : List JVal)
    (existingTestCases : List CleanedTC) : Except Unit (List CleanedTC) := do
  let cleaned ← cleanStage testCases
  let st0 ← seedAll ⟨[], [], [], []⟩ existingTestCases
  let final ← dedupEnhancedList st0 cleaned
  .ok final.uniqueCases

/-- State of the basic duplicate filter of `validateAndCleanTestCases`. -/
structure BState where
  seenSummaries : List JStr
  seenStepsSignatures : List JStr
  uniqueCases : List CleanedTC

/-- One record through the basic duplicate filter: reject on exact summary
match or `> 0.85` simple similarity of the whitespace-collapsed lower-cased
steps. -/
def dedupStepB (st : BState) (tc : CleanedTC) : Except Unit BState := do
  let summary ← asStr tc.summary
  let steps ← asStr tc.testSteps
  let summaryKey := jsTrim (jsToLower summary)
  let stepsSignature := jsTrim (collapseWS (jsToLower steps))
  if st.seenSummaries.contains summaryKey then .ok st
  else if st.seenStepsSignatures.any
      (fun es => fracGtF (calculateSimpleSimilarity stepsSignature es) ⟨85, 100⟩) then
    .ok st
  else
    .ok { seenSummaries := st.seenSummaries ++ [summaryKey],
          seenStepsSignatures := st.seenStepsSignatures ++ [stepsSignature],
          uniqueCases := st.uniqueCases ++ [tc] }

/-- The basic duplicate filter applied to the whole cleaned batch. -/
def dedupBasicList (st : BState) : List CleanedTC → Except Unit BState
  | [] => .ok st
  | tc :: rest => do
    let st' ← dedupStepB st tc
    dedupBasicList st' rest

/-- Model of `validateAndCleanTestCases(testCases)`: the cleaning stage followed by the
basic duplicate detection. -/
def validateAndCleanTestCases (testCases : List JVal) : Except Unit (List CleanedTC) := do
  let cleaned ← cleanStage testCases
  let final ← dedupBasicList ⟨[], [], []⟩ cleaned
  .ok final.uniqueCases

/-- One scenario through the map of `validateAndCleanTestScenarios`. -/
def cleanScenario (index : Nat) (scenario : JVal) : Except Unit ScenarioRec := do
  let idv ← getProp scenario "id".data
  let modv ← getProp scenario "module".data
  let condv ← getProp scenario "condition".data
  let tsv ← getProp scenario "testScenarios".data
  let descv ← getProp scenario "description".data
  let stv ← getProp scenario "status".data
  .ok { id := jsOr idv (.str ("TS_".data ++ natStr (index + 1))),
        module := jsOr modv (.str []),
        condition := jsOr condv (.str []),
        testScenarios := jsOr tsv (jsOr descv
          (.str ("Test Scenario ".data ++ natStr (index + 1) ++ " Description".data))),
        status := jsOr stv (.str "Not Tested".data) }

/-- The `.map(...)` of `validateAndCleanTestScenarios`, with running index. -/
def cleanScenarioList (index : Nat) : List JVal → Except Unit (List ScenarioRec)
  | [] => .ok []
  | s :: rest => do
    let c ← cleanScenario index s
    let cs ← cleanScenarioList (index + 1) rest
    .ok (c :: cs)

/-- Model of `validateAndCleanTestScenarios(scenarios)`: default-filling map followed
by a filter on a truthy `testScenarios` field. -/
def validateAndCleanTestScenarios (scenarios : List JVal) : Except Unit (List ScenarioRec) := do
  let cleaned ← cleanScenarioList 0 scenarios
  .ok (cleaned.filter (fun s => s.testScenarios.truthy))

/-- Length and captured id of a match of `/"id":\s*"(PC_\d+)"/` at the head of
the list (the capture is the `PC_<digits>` identifier). -/
def idMatchAt (l : JStr) : Option (JStr × Nat) :=
  match l with
  | '"' :: 'i' :: 'd' :: '"' :: ':' :: rest =>
    let ws := rest.takeWhile Char.isWhitespace
    match rest.drop ws.length with
    | '"' :: 'P' :: 'C' :: '_' :: r2 =>
      let ds := r2.takeWhile Char.isDigit
      if ds.isEmpty then none
      else
        match r2.drop ds.length with
        | '"' :: _ => some ("PC_".data ++ ds, 5 + ws.length + 4 + ds.length + 1)
        | _ => none
    | _ => none
  | _ => none

/-- A successful id match consumes at least one character. -/
theorem idMatchAt_pos {l : JStr} {s : JStr} {n : Nat} (h : idMatchAt l = some (s, n)) :
    0 < n := by
  unfold idMatchAt at h
  repeat' split at h <;> simp_all
  omega

/-- Worker for `scanIds`, fuelled like `removeStepNumsGo`. -/
def scanIdsGo : Nat → JStr → Nat → List (Nat × JStr)
  | 0, _, _ => []
  | _ + 1, [], _ => []
  | fuel + 1, c :: cs, pos =>
    match idMatchAt (c :: cs) with
    | some (idStr, n) => (pos, idStr) :: scanIdsGo fuel ((c :: cs).drop n) (pos + n)
    | none => scanIdsGo fuel cs (pos + 1)

/-- Model of `text.matchAll(/"id":\s*"(PC_\d+)"/g)`: all non-overlapping matches with
their start positions, scanning left to right and continuing after each
match (a successful match consumes at least one character, see
`idMatchAt_pos`, so the fuel never runs out). -/
def scanIds (l : JStr) (pos : Nat) : List (Nat × JStr) := scanIdsGo l.length l pos

/-- Case-insensitive match of a literal pattern at the head of the text,
returning the remaining text (the `i` flag of the `extractField` regex). -/
def matchCI : JStr → JStr → Option JStr
  | [], l => some l
  | _ :: _, [] => none
  | p :: ps, c :: cs => if p.toLower = c.toLower then matchCI ps cs else none

/-- Match of `/"<fieldName>":\s*"([^"]*)"/i` at the head of the text,
returning the captured field value. -/
def extractFieldAt (l : JStr) (fieldName : JStr) : Option JStr :=
  match matchCI ('"' :: fieldName ++ ['"', ':']) l with
  | none => none
  | some r1 =>
    match r1.dropWhile Char.isWhitespace with
    | '"' :: r3 =>
      let cap := r3.takeWhile (fun c => c ≠ '"')
      match r3.drop cap.length with
      | '"' :: _ => some cap
      | _ => none
    | _ => none

/-- First match of the `extractField` regex anywhere in the text. -/
def extractFieldScan (l : JStr) (fieldName : JStr) : Option JStr :=
  match l with
  | [] => none
  | _ :: cs =>
    match extractFieldAt l fieldName with
    | some cap => cap
    | none => extractFieldScan cs fieldName

/-- Model of `extractField(text, fieldName)`: the first captured value with `\n`
escapes decoded, or the empty string when the pattern does not occur. -/
def extractField (text : JStr) (fieldName : JStr) : JStr :=
  match extractFieldScan text fieldName with
  | some cap => unescapeBackslashN cap
  | none => []

/-- Model of `a || b` on JavaScript strings (the empty string is falsy). -/
def jsOrStr (a b : JStr) : JStr := if a.isEmpty then b else a

/-- Segment loop of `manuallyParseTestCases`: each id match opens a segment
running to the next match (or the end of the text); fields are extracted per
segment and the record is kept only when its summary is non-empty. -/
def buildManual (text : JStr) : List (Nat × JStr) → List CleanedTC
  | [] => []
  | (startPos, tcId) :: rest =>
    let endPos : Nat :=
      match rest with
      | (nxt, _) :: _ => nxt
      | [] => text.length
    let tcText := jsSubstring text startPos endPos
    let tc : CleanedTC :=
      { id := .str tcId,
        module := .str (extractField tcText "module".data),
        submodule := .str (extractField tcText "submodule".data),
        summary := .str (extractField tcText "summary".data),
        testSteps := .str (extractField tcText "testSteps".data),
        expectedResults := .str (extractField tcText "expectedResults".data),
        testCaseType := .str (jsOrStr (extractField tcText "testCaseType".data) "Positive".data),
        environment := .str (jsOrStr (extractField tcText "environment".data) "Test".data),
        status := .str (jsOrStr (extractField tcText "status".data) "Not Tested".data) }
    if (extractField tcText "summary".data).isEmpty then buildManual text rest
    else tc :: buildManual text rest

/-- Model of `manuallyParseTestCases(text)`: regex scan for `PC_<n>` ids over the raw
text, then field extraction per segment. -/
def manuallyParseTestCases (text : JStr) : List CleanedTC :=
  buildManual text (scanIds text 0)

/-- Model of `getFallbackTestCases()`: the i-th of the 20 deterministic placeholder
records (1-based). -/
def fallbackCase (i : Nat) : CleanedTC :=
  { id := .str ("PC_".data ++ natStr i),
    module := .str "Test Module".data,
    submodule := .str "Test Submodule".data,
    summary := .str ("Test Case ".data ++ natStr i ++ " Summary".data),
    testSteps := .str ("Step 1. Perform action for test case ".data ++ natStr i ++
      "\nStep 2. Verify result\nStep 3. Validate outcome".data),
    expectedResults := .str ("Expected result for test case ".data ++ natStr i),
    testCaseType := .str (if i % 4 = 0 then "Negative".data else "Positive".data),
    environment := .str "Test".data,
    status := .str "Not Tested".data }

/-- Model of `getFallbackTestCases()`: 20 deterministic placeholder test cases. -/
def getFallbackTestCases : List CleanedTC :=
  (List.range 20).map (fun k => fallbackCase (k + 1))

/-- The five rotating conditions of `getFallbackTestScenarios`. -/
def fallbackConditions : List JStr :=
  ["Using Valid Credentials for Login".data,
   "Using Invalid Credentials for Login".data,
   "Forgot Password".data,
   "Language Change".data,
   "Attempt with empty fields".data]

/-- The i-th deterministic placeholder scenario (1-based). -/
def fallbackScenario (i : Nat) : ScenarioRec :=
  { id := .str ("TS_".data ++ natStr i),
    module := .str "Test Module".data,
    condition := .str
      (match fallbackConditions.get? ((i - 1) % fallbackConditions.length) with
       | some c => jsOrStr c "Default Condition".data
       | none => "Default Condition".data),
    testScenarios := .str ("Test Scenario ".data ++ natStr i ++
      ": End-to-end workflow testing for the module functionality".data),
    status := .str "Not Tested".data }

/-- Model of `getFallbackTestScenarios()`: 10 deterministic placeholder scenarios. -/
def getFallbackTestScenarios : List ScenarioRec :=
  (List.range 10).map (fun k => fallbackScenario (k + 1))

/-- The array-boundary search of both parsers: first `[`, last `]`, requiring
the latter to come strictly after the former (`startIndex === -1 ||
endIndex === -1 || endIndex <= startIndex` is the failure condition). -/
def arrayBounds (cleanedText : JStr) : Option (Nat × Nat) :=
  match indexOfChar cleanedText '[', lastIndexOfChar cleanedText ']' with
  | some s, some e => if e ≤ s then none else some (s, e)
  | _, _ => none

/-- The bracketed substring `cleanedText.substring(startIndex, endIndex + 1)`. -/
def jsonSlice (cleanedText : JStr) (b : Nat × Nat) : JStr :=
  jsSubstring cleanedText b.1 (b.2 + 1)

/-- Strategy 3 of `parseGeminiJSON`: manual extraction over the raw text,
falling back to the static test cases when it finds nothing. -/
def parseStrat3 (text : JStr) : List CleanedTC :=
  let manualParsed := manuallyParseTestCases text
  if manualParsed.length > 0 then manualParsed else getFallbackTestCases

/-- Strategy 2 of `parseGeminiJSON`: parse the repaired JSON string; a parse
or validation exception, a non-array, or an empty array falls through to
strategy 3. -/
def parseStrat2 (parse : JStr → Option JVal) (text jsonString : JStr) : List CleanedTC :=
  match parse (fixJson jsonString) with
  | some (.arr parsed) =>
    if parsed.length > 0 then
      match validateAndCleanTestCases parsed with
      | .ok cleaned => cleaned
      | .error _ => parseStrat3 text
    else parseStrat3 text
  | _ => parseStrat3 text

/-- Model of `parseGeminiJSON(text)`: strip code fences, locate the array, then try
strict parse, repaired parse, manual extraction, and the static fallback, in
that order; exceptions from parsing or validation fall through to the next
strategy.  `parse` is the `JSON.parse` oracle. -/
def parseGeminiJSON (parse : JStr → Option JVal) (text : JStr) : List CleanedTC :=
  let cleanedText := stripFences text
  match arrayBounds cleanedText with
  | none => getFallbackTestCases
  | some b =>
    let jsonString := jsonSlice cleanedText b
    match parse jsonString with
    | some (.arr parsed) =>
      if parsed.length > 0 then
        match validateAndCleanTestCases parsed with
        | .ok cleaned => cleaned
        | .error _ => parseStrat2 parse text jsonString
      else parseStrat2 parse text jsonString
    | _ => parseStrat2 parse text jsonString

/-- Model of `parseTestScenariosJSON(text)`: strip code fences, locate the array, and
attempt only the strict parse; anything else yields the scenario fallback. -/
def parseTestScenariosJSON (parse : JStr → Option JVal) (text : JStr) : List ScenarioRec :=
  let cleanedText := stripFences text
  match arrayBounds cleanedText with
  | none => getFallbackTestScenarios
  | some b =>
    match parse (jsonSlice cleanedText b) with
    | some (.arr parsed) =>
      if parsed.length > 0 then
        match validateAndCleanTestScenarios parsed with
        | .ok cleaned => cleaned
        | .error _ => getFallbackTestScenarios
      else getFallbackTestScenarios
    | _ => getFallbackTestScenarios

/-- Retryable-error classification of `callGeminiWithRetry`: the error
message contains one of the overload / rate-limit markers. -/
def isRetryableError (msg : JStr) : Bool :=
  jsIncludes "503".data msg || jsIncludes "overloaded".data msg ||
  jsIncludes "rate limit".data msg || jsIncludes "429".data msg

/-- Attempt loop of `callGeminiWithRetry`.  `call n` is the outcome of the
n-th invocation of the generation request (1-based); the result carries the
number of invocations performed.  A retryable failure with no attempts left
falls out of the loop and raises the last error; a non-retryable failure
raises immediately; timing (backoff, jitter) is not modelled. -/
def callGeminiRetryGo (call : Nat → Except JStr JStr) :
    Nat → Nat → Option JStr → Except (Option JStr) JStr × Nat
  | 0, attempt, lastError => (.error lastError, attempt - 1)
  | remaining + 1, attempt, _ =>
    match call attempt with
    | .ok text => (.ok text, attempt)
    | .error e =>
      if isRetryableError e then callGeminiRetryGo call remaining (attempt + 1) (some e)
      else (.error (some e), attempt)

/-- Model of `callGeminiWithRetry(model, prompt, maxRetries)`: run the attempt loop
starting at attempt 1 with no recorded error. -/
def callGeminiWithRetry (call : Nat → Except JStr JStr) (maxRetries : Nat) :
    Except (Option JStr) JStr × Nat :=
  callGeminiRetryGo call maxRetries 1 none

/-- A fully normalized test-case record: every field a string.  This is the
shape of records already processed by the cleaning stage (and of existing
records read back from the sheet), used to state batch-level properties. -/
structure NormTC where
  id : JStr
  module : JStr
  submodule : JStr
  summary : JStr
  testSteps : JStr
  expectedResults : JStr
  testCaseType : JStr
  environment : JStr
  status : JStr
deriving DecidableEq

/-- View of a normalized record as a cleaned record. -/
def toCleaned (r : NormTC) : CleanedTC :=
  { id := .str r.id, module := .str r.module, submodule := .str r.submodule,
    summary := .str r.summary, testSteps := .str r.testSteps,
    expectedResults := .str r.expectedResults, testCaseType := .str r.testCaseType,
    environment := .str r.environment, status := .str r.status }

/-- View of a normalized record as a candidate object (the JSON object with
exactly the nine canonical keys, all string-valued). -/
def toCand (r : NormTC) : JVal :=
  .obj [("id".data, .str r.id), ("module".data, .str r.module),
        ("submodule".data, .str r.submodule), ("summary".data, .str r.summary),
        ("testSteps".data, .str r.testSteps),
        ("expectedResults".data, .str r.expectedResults),
        ("testCaseType".data, .str r.testCaseType),
        ("environment".data, .str r.environment), ("status".data, .str r.status)]

/-- A record the cleaning stage leaves unchanged at any position: the fields
that would otherwise be replaced by synthesized defaults are non-empty. -/
def NormInv (r : NormTC) : Prop :=
  r.id ≠ [] ∧ r.summary ≠ [] ∧ r.testCaseType ≠ [] ∧ r.environment ≠ [] ∧ r.status ≠ []

instance (r : NormTC) : Decidable (NormInv r) := by
  unfold NormInv; infer_instance

/-- Summary key of a normalized record, as used by the duplicate filters. -/
def keyOf (r : NormTC) : JStr := jsTrim (jsToLower r.summary)

/-- Steps signature of a normalized record. -/
def sigOf (r : NormTC) : JStr := createStepsSignature r.testSteps

/-- Purpose signature of a normalized record. -/
def purpOf (r : NormTC) : JStr := extractTestPurpose r.summary

/-- Pure image of the enhanced-filter state over normalized records. -/
structure PState where
  sums : List JStr
  sigs : List JStr
  purps : List JStr
  unique : List NormTC

/-- The enhanced-filter state seeded from a list of existing normalized
records (pure image of `seedAll`). -/
def pureSeed (existing : List NormTC) : PState :=
  ⟨existing.map keyOf, existing.map sigOf, existing.map purpOf, []⟩

/-- Pure image of `dedupStepE` over normalized records. -/
def pureStep (st : PState) (r : NormTC) : PState :=
  if st.sums.contains (keyOf r) then st
  else if st.sigs.any
      (fun es => fracGtF (calculateAdvancedSimilarity (sigOf r) es) ⟨75, 100⟩) then st
  else if st.purps.any
      (fun ep => fracGtF (calculatePurposeSimilarity (purpOf r) ep) ⟨70, 100⟩) then st
  else if st.unique.any
      (fun u => fracGtF (calculateAdvancedSimilarity (sigOf r) (sigOf u)) ⟨70, 100⟩ ||
                fracGtF (calculatePurposeSimilarity (purpOf r) (purpOf u)) ⟨70, 100⟩) then st
  else ⟨st.sums ++ [keyOf r], st.sigs ++ [sigOf r], st.purps ++ [purpOf r],
        st.unique ++ [r]⟩

/-- Pure image of the enhanced filter: survivors of `batch` against
`existing`. -/
def pureRun (existing batch : List NormTC) : List NormTC :=
  (batch.foldl pureStep (pureSeed existing)).unique

/-- View of a pure filter state as a full filter state. -/
def liftState (p : PState) : DState :=
  ⟨p.sums, p.sigs, p.purps, p.unique.map toCleaned⟩

/-! ### Decidable shape predicates on candidate values -/

/-- Is the value a JSON object? -/
def isObjB : JVal → Bool
  | .obj _ => true
  | _ => false

/-- Is the field `k` of candidate `c` a string or absent? -/
def strFieldOkB (c : JVal) (k : JStr) : Bool :=
  match getProp c k with
  | .ok (.str _) => true
  | .ok .undef => true
  | _ => false

/-- Is the field `k` of candidate `c` a string, an array of strings, or
absent?  (The shapes contemplated by the specification for step fields.) -/
def stepsFieldOkB (c : JVal) (k : JStr) : Bool :=
  match getProp c k with
  | .ok (.str _) => true
  | .ok .undef => true
  | .ok (.arr es) => es.all (fun e => match e with | .str _ => true | _ => false)
  | _ => false

/-- A candidate record as contemplated by the specification's normalization
claims: a JSON object whose `id`/`summary`/`title` fields are strings or
absent and whose `testSteps`/`steps` fields are strings, arrays of strings,
or absent. -/
def GoodCand (c : JVal) : Prop :=
  isObjB c = true ∧ strFieldOkB c "id".data = true ∧
  strFieldOkB c "summary".data = true ∧ strFieldOkB c "title".data = true ∧
  stepsFieldOkB c "testSteps".data = true ∧ stepsFieldOkB c "steps".data = true

instance (c : JVal) : Decidable (GoodCand c) := by
  unfold GoodCand; infer_instance

/-- The truthy string id a candidate brings itself, if any (an empty or
missing or non-truthy id is synthesized instead). -/
def explicitId (c : JVal) : Option JStr :=
  match getProp c "id".data with
  | .ok (.str s) => if s.isEmpty then none else some s
  | _ => none

/-- The id synthesized for position `k` (0-based): `PC_<k+1>`. -/
def pcId (k : Nat) : JStr := "PC_".data ++ natStr (k + 1)

/-- The id the cleaning stage assigns to candidate `c` at position `index`:
its own truthy id, or the synthesized positional id. -/
def idAssigned (c : JVal) (index : Nat) : JStr :=
  match explicitId c with
  | some s => s
  | none => pcId index

/-- The ids the cleaning stage assigns to a batch starting at `index`. -/
def assignedIds (index : Nat) : List JVal → List JStr
  | [] => []
  | c :: rest => idAssigned c index :: assignedIds (index + 1) rest

/-- Two cleaned records have distinct summary keys (lower-cased trimmed
summaries) whenever both summaries are strings. -/
def summaryKeyNe (a b : CleanedTC) : Prop :=
  ∀ sa sb, a.summary = .str sa → b.summary = .str sb →
    jsTrim (jsToLower sa) ≠ jsTrim (jsToLower sb)

/-! ### Concrete sample data used by counterexamples and witnesses -/

/-- A normalized record with the given id, summary and steps and canonical
defaults elsewhere. -/
def mkNorm (idv summaryv stepsv : String) : NormTC :=
  { id := idv.data, module := [], submodule := [], summary := summaryv.data,
    testSteps := stepsv.data, expectedResults := [],
    testCaseType := "Positive".data, environment := "Test".data,
    status := "Not Tested".data }

/-- Sample record: four step tokens. -/
def sampleX : NormTC := mkNorm "PC_1" "aaa" "aaaa bbbb cccc dddd"

/-- Sample record sharing three of `sampleX`'s four step tokens: its steps
signature has advanced similarity exactly 3/4 to `sampleX`'s. -/
def sampleY : NormTC := mkNorm "PC_2" "bbb" "aaaa bbbb cccc"

/-- Sample record unrelated to `sampleX` (similarity 0). -/
def sampleW : NormTC := mkNorm "PC_3" "www" "wwww xxxx"

/-- Sample record: first of the summary-duplicate triple. -/
def sampleA : NormTC := mkNorm "PC_1" "aaa bbb" "aaaa bbbb cccc dddd"

/-- Sample record whose steps signature has advanced similarity 4/5 to
`sampleA`'s (so it is rejected), and whose summary recurs in `sampleC`. -/
def sampleB : NormTC := mkNorm "PC_2" "ccc ddd" "aaaa bbbb cccc dddd eeee"

/-- Sample record with the same summary as `sampleB` but steps unrelated to
`sampleA`. -/
def sampleC : NormTC := mkNorm "PC_3" "ccc ddd" "pppp qqqq"

/-- A filter state whose seen steps-signatures contain `sampleA`'s. -/
def stateWithA : DState := ⟨[], [sigOf sampleA], [], []⟩

/-- A raw model answer with recognizable fields but no JSON array brackets. -/
def bracketFreeText : JStr := "\"id\": \"PC_1\", \"summary\": \"Login ok\"".data

/-- The `JSON.parse` oracle that fails on every input. -/
def jsonParseNone : JStr → Option JVal := fun _ => none

/-- A raw scenario answer that is an array with a trailing comma: strict
parsing fails, and the repaired string `[1]` would parse. -/
def trailingCommaText : JStr := "[1,]".data

/-- A `JSON.parse` oracle that accepts exactly the repaired string `[1]`. -/
def repairedOnlyOracle : JStr → Option JVal :=
  fun s => if s = "[1]".data then some (.arr [.num 1]) else none

/-- Candidate with an explicit id `PC_1` and summary `aaa`. -/
def dupIdCand1 : JVal :=
  .obj [("id".data, .str "PC_1".data), ("summary".data, .str "aaa".data)]

/-- Candidate with the same explicit id `PC_1` but summary `bbb`. -/
def dupIdCand2 : JVal :=
  .obj [("id".data, .str "PC_1".data), ("summary".data, .str "bbb".data)]

/-- The cleaning-stage output on the duplicate-id pair. -/
def dupIdOut : List CleanedTC :=
  match cleanStage [dupIdCand1, dupIdCand2] with
  | .ok l => l
  | .error _ => []

/-- Candidate with array-typed steps. -/
def goodCandArr : JVal :=
  .obj [("id".data, .str "PC_9".data),
        ("summary".data, .str "Array steps case".data),
        ("testSteps".data, .arr [.str "one".data, .str "two".data])]

/-- Candidate with string-typed steps under the alternate `steps` key and no
id. -/
def goodCandStr : JVal :=
  .obj [("summary".data, .str "String steps case".data),
        ("steps".data, .str "do things".data)]

/-- Candidate with an explicit non-colliding id. -/
def mixedCand1 : JVal :=
  .obj [("id".data, .str "X_7".data), ("summary".data, .str "aaa".data)]

/-- Candidate with no id at all (position 1 synthesizes `PC_2`). -/
def mixedCand2 : JVal := .obj [("summary".data, .str "bbb".data)]

/-- A scenario candidate object. -/
def scenarioObj : JVal := .obj [("condition".data, .str "Valid login".data)]

/-- A generation call that always fails with a retryable error. -/
def callRetryDemo : Nat → Except JStr JStr := fun _ => .error "503 overloaded".data

/-- A generation call that always fails with a non-retryable error. -/
def callFatalDemo : Nat → Except JStr JStr := fun _ => .error "boom".data

/-- A generation call that succeeds immediately. -/
def callOkDemo : Nat → Except JStr JStr := fun _ => .ok "hi".data

/-! ### General lemmas -/

/-- A JavaScript `a || b` is truthy iff one of the operands is. -/
theorem jsOr_truthy (a b : JVal) : (jsOr a b).truthy = (a.truthy || b.truthy) := by
  unfold jsOr
  by_cases h : a.truthy <;> simp [h]

/-- A list with a non-empty left part is non-empty. -/
theorem append_ne_nil_left {a b : JStr} (h : a ≠ []) : a ++ b ≠ [] := by
  intro hc
  cases a with
  | nil => exact h rfl
  | cons x xs => simp at hc

/-! ### C3: retry bound and error classification -/

/-- C3: with `maxRetries = 3`, an always-retryable-failing call is invoked
exactly 3 times and the last error is raised; a non-retryable failure on the
first attempt is raised after exactly 1 invocation; a first-attempt success
returns after exactly 1 invocation. -/
theorem callGeminiWithRetry_bound (call : Nat → Except JStr JStr) :
    ((∀ n, 1 ≤ n → n ≤ 3 → ∃ e, call n = .error e ∧ isRetryableError e = true) →
      ∀ e3, call 3 = .error e3 →
        callGeminiWithRetry call 3 = (.error (some e3), 3)) ∧
    (∀ e, call 1 = .error e → isRetryableError e = false →
      callGeminiWithRetry call 3 = (.error (some e), 1)) ∧
    (∀ t, call 1 = .ok t → callGeminiWithRetry call 3 = (.ok t, 1)) := by
  refine ⟨?_, ?_, ?_⟩
  · intro h e3 he3
    obtain ⟨e1, he1, hr1⟩ := h 1 le_rfl (by omega)
    obtain ⟨e2, he2, hr2⟩ := h 2 (by omega) (by omega)
    obtain ⟨e3', he3', hr3'⟩ := h 3 (by omega) le_rfl
    rw [he3] at he3'
    injection he3' with heq
    subst heq
    simp [callGeminiWithRetry, callGeminiRetryGo, he1, hr1, he2, hr2, he3, hr3']
  · intro e he hr
    simp [callGeminiWithRetry, callGeminiRetryGo, he, hr]
  · intro t ht
    simp [callGeminiWithRetry, callGeminiRetryGo, ht]

/-- Witness for C3 at three concrete generation calls. -/
theorem callGeminiWithRetry_bound_witness :
    callGeminiWithRetry callRetryDemo 3 = (.error (some "503 overloaded".data), 3) ∧
    callGeminiWithRetry callFatalDemo 3 = (.error (some "boom".data), 1) ∧
    callGeminiWithRetry callOkDemo 3 = (.ok "hi".data, 1) :=
  ⟨(callGeminiWithRetry_bound callRetryDemo).1
      (fun _ _ _ => ⟨"503 overloaded".data, rfl, by decide⟩) _ rfl,
   (callGeminiWithRetry_bound callFatalDemo).2.1 _ rfl (by decide),
   (callGeminiWithRetry_bound callOkDemo).2.2 _ rfl⟩

/-! ### C7: the bracket-absent path of the test-case extractor -/

/-- C7 counterexample: on a bracket-free input whose fields manual extraction
would recover (one record), the extractor does not run manual extraction but
returns the static fallback directly. -/
theorem bracketAbsent_counterexample :
    arrayBounds (stripFences bracketFreeText) = none ∧
    (manuallyParseTestCases bracketFreeText).length = 1 ∧
    parseGeminiJSON jsonParseNone bracketFreeText = getFallbackTestCases ∧
    parseGeminiJSON jsonParseNone bracketFreeText ≠ manuallyParseTestCases bracketFreeText := by
  refine ⟨rfl, rfl, rfl, ?_⟩
  intro h
  have h2 : getFallbackTestCases = manuallyParseTestCases bracketFreeText := by
    rw [← h]; rfl
  exact absurd (congrArg List.length h2) (by decide)

/-- C7 amended: when the cleaned text has no `[`, no `]`, or the last `]`
not after the first `[`, the extractor skips strategies 2-4 entirely and
returns the static fallback test cases. -/
theorem parseGeminiJSON_bracketAbsent (parse : JStr → Option JVal) (text : JStr)
    (h : arrayBounds (stripFences text) = none) :
    parseGeminiJSON parse text = getFallbackTestCases := by
  simp [parseGeminiJSON, h]

/-- Witness for the amended C7 at a concrete bracket-free input. -/
theorem parseGeminiJSON_bracketAbsent_witness :
    parseGeminiJSON jsonParseNone "no array here".data = getFallbackTestCases :=
  parseGeminiJSON_bracketAbsent jsonParseNone "no array here".data rfl

/-! ### C9: the scenario extractor applies only the strict strategy -/

/-- C9: the scenario parser returns the fixed 10-record fallback whenever the
bracket search fails or the strict parse of the bracketed substring fails;
repaired parsing and manual extraction are never attempted for scenarios. -/
theorem parseTestScenariosJSON_strict_only (parse : JStr → Option JVal) (text : JStr) :
    (arrayBounds (stripFences text) = none →
      parseTestScenariosJSON parse text = getFallbackTestScenarios) ∧
    (∀ b, arrayBounds (stripFences text) = some b →
      parse (jsonSlice (stripFences text) b) = none →
      parseTestScenariosJSON parse text = getFallbackTestScenarios) ∧
    getFallbackTestScenarios.length = 10 := by
  refine ⟨fun h => by simp [parseTestScenariosJSON, h], ?_, by decide⟩
  intro b hb hp
  simp [parseTestScenariosJSON, hb, hp]

/-- Witness for C9: a trailing-comma array fails the strict parse and yields
the scenario fallback, although the same oracle parses the repaired string —
which the test-case extractor does exploit on the same input. -/
theorem parseTestScenariosJSON_strict_only_witness :
    parseTestScenariosJSON repairedOnlyOracle trailingCommaText = getFallbackTestScenarios ∧
    repairedOnlyOracle (fixJson trailingCommaText) = some (.arr [.num 1]) ∧
    (parseGeminiJSON repairedOnlyOracle trailingCommaText).length = 1 :=
  ⟨(parseTestScenariosJSON_strict_only repairedOnlyOracle trailingCommaText).2.1
      (0, 3) rfl rfl, rfl, rfl⟩

/-! ### C10: scenario records are never deduplicated -/

/-- A non-empty string value is truthy. -/
theorem truthy_str_of_ne_nil {l : JStr} (h : l ≠ []) : (JVal.str l).truthy = true := by
  cases l with
  | nil => exact absurd rfl h
  | cons c cs => rfl

/-- Cleaning an object scenario succeeds and the synthesized default makes
the `testScenarios` field truthy. -/
theorem cleanScenario_obj (index : Nat) (fs : List (JStr × JVal)) :
    ∃ r, cleanScenario index (.obj fs) = .ok r ∧ r.testScenarios.truthy = true := by
  refine ⟨_, rfl, ?_⟩
  show (jsOr _ (jsOr _ (.str _))).truthy = true
  have hd : (JVal.str ("Test Scenario ".data ++ natStr (index + 1) ++
      " Description".data)).truthy = true :=
    truthy_str_of_ne_nil (append_ne_nil_left (append_ne_nil_left (by decide)))
  rw [jsOr_truthy, jsOr_truthy, hd]
  simp

/-- The scenario map stage succeeds on object batches, preserves the length,
and every produced record has a truthy `testScenarios` field. -/
theorem cleanScenarioList_ok (scenarios : List JVal) :
    ∀ index, (∀ v ∈ scenarios, isObjB v = true) →
    ∃ out, cleanScenarioList index scenarios = .ok out ∧
      out.length = scenarios.length ∧
      ∀ r ∈ out, r.testScenarios.truthy = true := by
  induction scenarios with
  | nil => exact fun index _ => ⟨[], rfl, rfl, by simp⟩
  | cons v vs ih =>
    intro index h
    have hv := h v (List.mem_cons_self _ _)
    obtain ⟨fs, rfl⟩ : ∃ fs, v = .obj fs := by
      cases v <;> first | exact ⟨_, rfl⟩ | simp [isObjB] at hv
    obtain ⟨r, hr, hrt⟩ := cleanScenario_obj index fs
    obtain ⟨out, hout, hlen, hall⟩ :=
      ih (index + 1) (fun w hw => h w (List.mem_cons_of_mem _ hw))
    refine ⟨r :: out, ?_, by simp [hlen], ?_⟩
    · simp only [cleanScenarioList]
      rw [hr]
      show Except.bind (cleanScenarioList (index + 1) vs)
        (fun cs => Except.ok (r :: cs)) = Except.ok (r :: out)
      rw [hout]
      rfl
    · intro x hx
      rcases List.mem_cons.mp hx with rfl | hx
      · exact hrt
      · exact hall x hx

/-- C10: on a batch of scenario objects, `validateAndCleanTestScenarios`
returns exactly the map-stage output — one record per input element, in
input order, with defaults filled; its final non-empty-`testScenarios`
filter drops nothing because the synthesized default makes that field
always truthy.  A batch of identical records is returned in full. -/
theorem validateAndCleanTestScenarios_no_dedup (scenarios : List JVal)
    (h : ∀ v ∈ scenarios, isObjB v = true) :
    ∃ out, cleanScenarioList 0 scenarios = .ok out ∧
      validateAndCleanTestScenarios scenarios = .ok out ∧
      out.length = scenarios.length ∧
      ∀ r ∈ out, r.testScenarios.truthy = true := by
  obtain ⟨out, hout, hlen, hall⟩ := cleanScenarioList_ok scenarios 0 h
  refine ⟨out, hout, ?_, hlen, hall⟩
  unfold validateAndCleanTestScenarios
  rw [hout]
  show Except.ok (out.filter _) = _
  rw [List.filter_eq_self.mpr hall]

/-- Witness for C10: a batch of three identical scenario records is returned
in full. -/
theorem validateAndCleanTestScenarios_no_dedup_witness :
    ∃ out, validateAndCleanTestScenarios [scenarioObj, scenarioObj, scenarioObj] = .ok out ∧
      out.length = 3 := by
  obtain ⟨out, _, h2, h3, _⟩ :=
    validateAndCleanTestScenarios_no_dedup [scenarioObj, scenarioObj, scenarioObj] (by decide)
  exact ⟨out, h2, by rw [h3]; rfl⟩

/-! ### Computation lemmas for the cleaning stage -/

/-- Binding a successful `Except` computation applies the continuation. -/
theorem bindOk {α β : Type} (a : α) (f : α → Except Unit β) :
    (Except.ok a >>= f) = f a := rfl

/-- Binding a pure `Except` computation applies the continuation. -/
theorem bindPure {α β : Type} (a : α) (f : α → Except Unit β) :
    ((pure a : Except Unit α) >>= f) = f a := rfl

/-- The cleaning map on an object candidate, computed field by field. -/
theorem cleanOne_obj_eq (index : Nat) (fs : List (JStr × JVal)) :
    cleanOne index (.obj fs) = .ok
      { id := jsOr (objGet fs "id".data) (.str ("PC_".data ++ natStr (index + 1))),
        module := jsOr (objGet fs "module".data) (.str []),
        submodule := jsOr (objGet fs "submodule".data) (.str []),
        summary := jsOr (objGet fs "summary".data)
          (jsOr (objGet fs "title".data)
            (.str ("Test Case ".data ++ natStr (index + 1)))),
        testSteps := jsOr (stepsVal fs) (.str []),
        expectedResults := jsOr (objGet fs "expectedResults".data)
          (jsOr (objGet fs "expectedResult".data) (.str [])),
        testCaseType := jsOr (objGet fs "testCaseType".data) (.str "Positive".data),
        environment := jsOr (objGet fs "environment".data) (.str "Test".data),
        status := jsOr (objGet fs "status".data) (.str "Not Tested".data) } := by
  unfold cleanOne stepsVal
  by_cases h : (objGet fs "testSteps".data).truthy <;>
    simp [getProp, h, bindOk, bindPure]

/-! ### Injectivity of the decimal id numbering -/

/-- The function `Nat.toDigitsCore` agrees with the mathematical digit expansion for
positive numbers when the fuel suffices. -/
theorem toDigitsCore_eq_digits :
    ∀ (fuel n : Nat) (ds : List Char), 0 < n → n ≤ fuel →
    Nat.toDigitsCore 10 fuel n ds =
      ((Nat.digits 10 n).map Nat.digitChar).reverse ++ ds := by
  intro fuel
  induction fuel with
  | zero => intro n ds hn hf; omega
  | succ f ih =>
    intro n ds hn hf
    rw [Nat.toDigitsCore]
    by_cases h : n / 10 = 0
    · have hlt : n < 10 := by omega
      simp only [h, if_true]
      rw [Nat.digits_def' (by norm_num : (1 : ℕ) < 10) hn, h]
      simp [Nat.mod_eq_of_lt hlt]
    · have hdiv_pos : 0 < n / 10 := Nat.pos_of_ne_zero h
      have hdiv_lt : n / 10 < n := Nat.div_lt_self hn (by norm_num)
      simp only [h, if_false]
      rw [ih (n / 10) _ hdiv_pos (by omega)]
      rw [Nat.digits_def' (by norm_num : (1 : ℕ) < 10) hn]
      simp

/-- The function `Nat.toDigits` in base 10 is the reversed mapped digit expansion. -/
theorem toDigits_eq_digits (n : Nat) (hn : 0 < n) :
    Nat.toDigits 10 n = ((Nat.digits 10 n).map Nat.digitChar).reverse := by
  unfold Nat.toDigits
  rw [toDigitsCore_eq_digits (n + 1) n [] hn (by omega)]
  simp

/-- The function `Nat.digitChar` is injective below 10. -/
theorem digitChar_inj_lt : ∀ a, a < 10 → ∀ b, b < 10 →
    Nat.digitChar a = Nat.digitChar b → a = b := by decide

/-- Mapping `Nat.digitChar` over digit lists (entries below 10) is
injective. -/
theorem map_digitChar_inj :
    ∀ (l1 : List Nat), (∀ d ∈ l1, d < 10) →
    ∀ (l2 : List Nat), (∀ d ∈ l2, d < 10) →
    l1.map Nat.digitChar = l2.map Nat.digitChar → l1 = l2 := by
  intro l1
  induction l1 with
  | nil =>
    intro _ l2 _ h
    cases l2 with
    | nil => rfl
    | cons b bs => simp at h
  | cons a as ih =>
    intro h1 l2 h2 h
    cases l2 with
    | nil => simp at h
    | cons b bs =>
      simp only [List.map_cons, List.cons.injEq] at h
      have hab := digitChar_inj_lt a (h1 a (List.mem_cons_self _ _))
        b (h2 b (List.mem_cons_self _ _)) h.1
      have htl := ih (fun d hd => h1 d (List.mem_cons_of_mem _ hd)) bs
        (fun d hd => h2 d (List.mem_cons_of_mem _ hd)) h.2
      rw [hab, htl]

/-- The decimal representation of a natural number determines it. -/
theorem natStr_injective {m n : Nat} (h : natStr m = natStr n) : m = n := by
  have h' : Nat.toDigits 10 m = Nat.toDigits 10 n := h
  rcases Nat.eq_zero_or_pos m with hm | hm <;> rcases Nat.eq_zero_or_pos n with hn | hn
  · omega
  · exfalso
    subst hm
    rw [toDigits_eq_digits n hn] at h'
    have h2 : ['0'].reverse = ((Nat.digits 10 n).map Nat.digitChar).reverse.reverse :=
      congrArg List.reverse h'
    simp only [List.reverse_reverse] at h2
    have h3 : Nat.digits 10 n = [0] :=
      map_digitChar_inj _ (fun d hd => Nat.digits_lt_base (by norm_num) hd) _
        (by simp) (by simpa using h2.symm)
    have h4 := Nat.ofDigits_digits 10 n
    rw [h3] at h4
    simp [Nat.ofDigits] at h4
    omega
  · exfalso
    subst hn
    rw [toDigits_eq_digits m hm] at h'
    have h2 : ((Nat.digits 10 m).map Nat.digitChar).reverse.reverse = ['0'].reverse :=
      congrArg List.reverse h'
    simp only [List.reverse_reverse] at h2
    have h3 : Nat.digits 10 m = [0] :=
      map_digitChar_inj _ (fun d hd => Nat.digits_lt_base (by norm_num) hd) _
        (by simp) (by simpa using h2)
    have h4 := Nat.ofDigits_digits 10 m
    rw [h3] at h4
    simp [Nat.ofDigits] at h4
    omega
  · rw [toDigits_eq_digits m hm, toDigits_eq_digits n hn] at h'
    have h2 := congrArg List.reverse h'
    simp only [List.reverse_reverse] at h2
    have h3 : Nat.digits 10 m = Nat.digits 10 n :=
      map_digitChar_inj _ (fun d hd => Nat.digits_lt_base (by norm_num) hd) _
        (fun d hd => Nat.digits_lt_base (by norm_num) hd) h2
    exact Nat.digits.injective 10 h3

/-- Synthesized positional ids are pairwise distinct. -/
theorem pcId_injective {a b : Nat} (h : pcId a = pcId b) : a = b := by
  unfold pcId at h
  have h2 := List.append_cancel_left h
  have h3 := natStr_injective h2
  omega

/-- Unpacking `strFieldOkB` on an object: the field is a string or absent. -/
theorem strFieldOk_cases {fs : List (JStr × JVal)} {k : JStr}
    (h : strFieldOkB (.obj fs) k = true) :
    (∃ s, objGet fs k = .str s) ∨ objGet fs k = .undef := by
  unfold strFieldOkB at h
  rw [show getProp (.obj fs) k = .ok (objGet fs k) from rfl] at h
  cases hv : objGet fs k <;> rw [hv] at h <;> simp_all

/-- Unpacking `stepsFieldOkB` on an object: the field is a string, absent, or
an array of strings. -/
theorem stepsFieldOk_cases {fs : List (JStr × JVal)} {k : JStr}
    (h : stepsFieldOkB (.obj fs) k = true) :
    (∃ s, objGet fs k = .str s) ∨ objGet fs k = .undef ∨
    (∃ es, objGet fs k = .arr es) := by
  unfold stepsFieldOkB at h
  rw [show getProp (.obj fs) k = .ok (objGet fs k) from rfl] at h
  cases hv : objGet fs k <;> rw [hv] at h <;> simp_all

/-- The expression `a || b` on two strings is some string. -/
theorem jsOr_str_str (x y : JStr) : ∃ u, jsOr (.str x) (.str y) = .str u := by
  unfold jsOr
  split <;> exact ⟨_, rfl⟩

/-- The expression `a || d` is a non-empty string when `a` is a string or absent and `d` is
a non-empty string. -/
theorem jsOr_str_nonempty {a : JVal} {d : JStr}
    (ha : (∃ s, a = .str s) ∨ a = .undef) (hd : d ≠ []) :
    ∃ s, jsOr a (.str d) = .str s ∧ s ≠ [] := by
  rcases ha with ⟨s, rfl⟩ | rfl
  · unfold jsOr
    by_cases hs : (JVal.str s).truthy
    · refine ⟨s, by rw [if_pos hs], ?_⟩
      intro hnil
      rw [hnil] at hs
      exact absurd hs (by decide)
    · exact ⟨d, by rw [if_neg hs], hd⟩
  · exact ⟨d, rfl, hd⟩

/-- The expression `a || (b || d)` is a non-empty string when `a`, `b` are strings or absent
and `d` is a non-empty string. -/
theorem jsOr3_str_nonempty {a b : JVal} {d : JStr}
    (ha : (∃ s, a = .str s) ∨ a = .undef)
    (hb : (∃ s, b = .str s) ∨ b = .undef) (hd : d ≠ []) :
    ∃ s, jsOr a (jsOr b (.str d)) = .str s ∧ s ≠ [] := by
  obtain ⟨e, he, hne⟩ := jsOr_str_nonempty hb hd
  rw [he]
  exact jsOr_str_nonempty ha hne

/-- The steps field of a cleaned object candidate is a string when the
candidate's step fields are strings, arrays, or absent. -/
theorem stepsVal_str {fs : List (JStr × JVal)}
    (hts : stepsFieldOkB (.obj fs) "testSteps".data = true)
    (hst : stepsFieldOkB (.obj fs) "steps".data = true) :
    ∃ s, jsOr (stepsVal fs) (.str []) = .str s := by
  unfold stepsVal
  have fallback : ∀ v : JVal, (∃ s, v = .str s) ∨ v = .undef ∨ (∃ es, v = .arr es) →
      ∃ s, jsOr (match v with | .arr es => JVal.str (joinNL es) | v => v) (.str []) = .str s := by
    intro v hv
    rcases hv with ⟨s, rfl⟩ | rfl | ⟨es, rfl⟩
    · exact jsOr_str_str _ _
    · exact ⟨[], rfl⟩
    · exact jsOr_str_str _ _
  rcases stepsFieldOk_cases hts with ⟨s, hv⟩ | hv | ⟨es, hv⟩ <;> rw [hv]
  · by_cases hs : (JVal.str s).truthy
    · rw [if_pos hs]
      exact jsOr_str_str _ _
    · rw [if_neg hs]
      exact fallback _ (stepsFieldOk_cases hst)
  · rw [if_neg (by decide)]
    exact fallback _ (stepsFieldOk_cases hst)
  · rw [if_pos (show (JVal.arr es).truthy = true from rfl)]
    exact jsOr_str_str _ _

/-- The id field of a cleaned object candidate is the assigned id, which is
non-empty. -/
theorem jsOr_id_char {fs : List (JStr × JVal)} {index : Nat}
    (h : strFieldOkB (.obj fs) "id".data = true) :
    jsOr (objGet fs "id".data) (.str ("PC_".data ++ natStr (index + 1))) =
      .str (idAssigned (.obj fs) index) ∧ idAssigned (.obj fs) index ≠ [] := by
  have hpc : pcId index ≠ [] := append_ne_nil_left (by decide)
  unfold idAssigned explicitId
  rw [show getProp (.obj fs) "id".data = .ok (objGet fs "id".data) from rfl]
  rcases strFieldOk_cases h with ⟨s, hv⟩ | hv <;> rw [hv]
  · cases s with
    | nil => exact ⟨rfl, hpc⟩
    | cons c cs => refine ⟨rfl, ?_⟩; simp
  · exact ⟨rfl, hpc⟩

/-- The cleaning map on a well-typed candidate: the record exists, its id is
the assigned (non-empty) id, its summary is a non-empty string, and its steps
field is a single string. -/
theorem cleanOne_good (index : Nat) (c : JVal) (h : GoodCand c) :
    ∃ r, cleanOne index c = .ok r ∧
      r.id = .str (idAssigned c index) ∧ idAssigned c index ≠ [] ∧
      (∃ s, r.summary = .str s ∧ s ≠ []) ∧ (∃ s, r.testSteps = .str s) := by
  obtain ⟨hobj, hid, hsum, htitle, hts, hst⟩ := h
  obtain ⟨fs, rfl⟩ : ∃ fs, c = .obj fs := by
    cases c <;> first | exact ⟨_, rfl⟩ | simp [isObjB] at hobj
  rw [cleanOne_obj_eq]
  obtain ⟨hideq, hidne⟩ := @jsOr_id_char fs index hid
  obtain ⟨ssum, hsumeq, hsumne⟩ := @jsOr3_str_nonempty (objGet fs "summary".data)
    (objGet fs "title".data) ("Test Case ".data ++ natStr (index + 1))
    (strFieldOk_cases hsum) (strFieldOk_cases htitle)
    (append_ne_nil_left (by decide))
  obtain ⟨sts, hts2⟩ := stepsVal_str hts hst
  exact ⟨_, rfl, hideq, hidne, ⟨ssum, hsumeq, hsumne⟩, ⟨sts, hts2⟩⟩

/-- The cleaning stage on a batch of well-typed candidates: it succeeds,
keeps every candidate (the synthesized summary default makes the filter
vacuous), assigns exactly the ids of `assignedIds`, and establishes the
normalization invariants on every record. -/
theorem cleanList_good : ∀ (cands : List JVal) (index : Nat),
    (∀ c ∈ cands, GoodCand c) →
    ∃ out, cleanList index cands = .ok out ∧
      out.length = cands.length ∧
      (∀ r ∈ out, r.summary.truthy = true) ∧
      out.map CleanedTC.id = (assignedIds index cands).map JVal.str ∧
      (∀ r ∈ out, (∃ s, r.id = .str s ∧ s ≠ []) ∧ (∃ s, r.summary = .str s ∧ s ≠ []) ∧
        (∃ s, r.testSteps = .str s)) := by
  intro cands
  induction cands with
  | nil => exact fun index _ => ⟨[], rfl, rfl, by simp, rfl, by simp⟩
  | cons c cs ih =>
    intro index h
    obtain ⟨r, hr, hrid, hridne, ⟨ssum, hsumeq, hsumne⟩, hsteps⟩ :=
      cleanOne_good index c (h c (List.mem_cons_self _ _))
    obtain ⟨out, hout, hlen, htruthy, hids, hinv⟩ :=
      ih (index + 1) (fun d hd => h d (List.mem_cons_of_mem _ hd))
    refine ⟨r :: out, ?_, by simp [hlen], ?_, ?_, ?_⟩
    · simp only [cleanList]
      rw [hr]
      show Except.bind (cleanList (index + 1) cs)
        (fun rest => Except.ok (r :: rest)) = Except.ok (r :: out)
      rw [hout]
      rfl
    · intro x hx
      rcases List.mem_cons.mp hx with rfl | hx
      · rw [hsumeq]
        exact truthy_str_of_ne_nil hsumne
      · exact htruthy x hx
    · simp only [assignedIds, List.map_cons, hids, hrid]
    · intro x hx
      rcases List.mem_cons.mp hx with rfl | hx
      · exact ⟨⟨_, hrid, hridne⟩, ⟨ssum, hsumeq, hsumne⟩, hsteps⟩
      · exact hinv x hx

/-- Membership in the assigned-ids list: an explicit id of some candidate or
a synthesized positional id within range. -/
theorem mem_assignedIds {y : JStr} : ∀ (cands : List JVal) (i : Nat),
    y ∈ assignedIds i cands →
    y ∈ cands.filterMap explicitId ∨ ∃ k, i ≤ k ∧ k < i + cands.length ∧ y = pcId k := by
  intro cands
  induction cands with
  | nil => intro i h; simp [assignedIds] at h
  | cons c rest ih =>
    intro i h
    simp only [assignedIds] at h
    rcases List.mem_cons.mp h with heq | h2
    · unfold idAssigned at heq
      cases hc : explicitId c with
      | some s =>
        rw [hc] at heq
        left
        simp [List.filterMap_cons, hc, heq]
      | none =>
        rw [hc] at heq
        right
        exact ⟨i, le_rfl, by simp, heq⟩
    · rcases ih (i + 1) h2 with h3 | ⟨k, hk1, hk2, hk3⟩
      · left
        cases hc : explicitId c <;> simp [List.filterMap_cons, hc, h3]
      · right
        refine ⟨k, by omega, ?_, hk3⟩
        simp only [List.length_cons]
        omega

/-- The assigned ids of a batch are pairwise distinct provided the explicit
ids are pairwise distinct and no explicit id collides with a synthesized
positional id. -/
theorem assignedIds_pairwise : ∀ (cands : List JVal) (i : Nat),
    (cands.filterMap explicitId).Pairwise (fun a b => a ≠ b) →
    (∀ s ∈ cands.filterMap explicitId, ∀ k, i ≤ k → k < i + cands.length → s ≠ pcId k) →
    (assignedIds i cands).Pairwise (fun a b => a ≠ b) := by
  intro cands
  induction cands with
  | nil => intro i _ _; simp [assignedIds]
  | cons c rest ih =>
    intro i hdist hsynth
    simp only [assignedIds]
    have htail_dist : (rest.filterMap explicitId).Pairwise (fun a b => a ≠ b) := by
      cases hc : explicitId c with
      | some s =>
        rw [List.filterMap_cons_some hc] at hdist
        exact (List.pairwise_cons.mp hdist).2
      | none => rwa [List.filterMap_cons_none hc] at hdist
    have htail_synth : ∀ s ∈ rest.filterMap explicitId, ∀ k, i + 1 ≤ k →
        k < i + 1 + rest.length → s ≠ pcId k := by
      intro s hs k hk1 hk2
      have hmem : s ∈ (c :: rest).filterMap explicitId := by
        cases hc : explicitId c <;> simp [List.filterMap_cons, hc, hs]
      exact hsynth s hmem k (by omega) (by simp only [List.length_cons]; omega)
    refine List.Pairwise.cons ?_ (ih (i + 1) htail_dist htail_synth)
    intro y hy
    rcases mem_assignedIds rest (i + 1) hy with hy1 | ⟨k, hk1, hk2, rfl⟩
    · unfold idAssigned
      cases hc : explicitId c with
      | some s =>
        rw [List.filterMap_cons_some hc] at hdist
        exact (List.pairwise_cons.mp hdist).1 y hy1
      | none =>
        have hymem : y ∈ (c :: rest).filterMap explicitId := by
          simp [List.filterMap_cons, hc, hy1]
        intro hcontra
        exact hsynth y hymem i le_rfl (by simp) hcontra.symm
    · unfold idAssigned
      cases hc : explicitId c with
      | some s =>
        have hsmem : s ∈ (c :: rest).filterMap explicitId := by
          simp [List.filterMap_cons, hc]
        exact hsynth s hsmem k (by omega) (by simp only [List.length_cons]; omega)
      | none =>
        intro hcontra
        have := pcId_injective hcontra
        omega

/-! ### C8: batch uniqueness of assigned ids -/

/-- C8 counterexample: two candidates carrying the same explicit id `PC_1`
both pass the normalization stage, which assigns the duplicate id to both;
the output ids are not pairwise distinct. -/
theorem cleanStage_dupIds_counterexample :
    cleanStage [dupIdCand1, dupIdCand2] = .ok dupIdOut ∧
    dupIdOut.map CleanedTC.id = [.str "PC_1".data, .str "PC_1".data] ∧
    ¬ (dupIdOut.map CleanedTC.id).Pairwise (fun a b => a ≠ b) := by
  refine ⟨rfl, rfl, ?_⟩
  intro h
  rw [show dupIdOut.map CleanedTC.id =
      [.str "PC_1".data, .str "PC_1".data] from rfl] at h
  exact (List.pairwise_cons.mp h).1 _ (List.mem_singleton.mpr rfl) rfl

/-- C8 amended: the normalization stage's ids (the candidate's own id, or the
synthesized `PC_<position+1>`) are pairwise distinct provided the explicit
ids of the batch are pairwise distinct and none of them collides with a
positional `PC_<k+1>` id. -/
theorem cleanStage_ids_distinct (cands : List JVal)
    (hg : ∀ c ∈ cands, GoodCand c)
    (hdist : (cands.filterMap explicitId).Pairwise (fun a b => a ≠ b))
    (hsynth : ∀ s ∈ cands.filterMap explicitId, ∀ k, k < cands.length → s ≠ pcId k) :
    ∃ out, cleanStage cands = .ok out ∧
      out.map CleanedTC.id = (assignedIds 0 cands).map JVal.str ∧
      (out.map CleanedTC.id).Pairwise (fun a b => a ≠ b) := by
  obtain ⟨out, hout, hlen, htruthy, hids, hinv⟩ := cleanList_good cands 0 hg
  have hfull : cleanStage cands = .ok out := by
    unfold cleanStage
    rw [hout]
    show Except.ok (out.filter _) = _
    rw [List.filter_eq_self.mpr htruthy]
  have hpw : (assignedIds 0 cands).Pairwise (fun a b => a ≠ b) :=
    assignedIds_pairwise cands 0 hdist (fun s hs k _ hk2 => hsynth s hs k (by omega))
  refine ⟨out, hfull, hids, ?_⟩
  rw [hids]
  refine List.Pairwise.map _ ?_ hpw
  intro a b hab hcontra
  exact hab (JVal.str.inj hcontra)

/-- Witness for the amended C8: one explicit id and one synthesized id,
pairwise distinct. -/
theorem cleanStage_ids_distinct_witness :
    ∃ out, cleanStage [mixedCand1, mixedCand2] = .ok out ∧
      out.map CleanedTC.id = [.str "X_7".data, .str "PC_2".data] ∧
      (out.map CleanedTC.id).Pairwise (fun a b => a ≠ b) := by
  obtain ⟨out, h1, h2, h3⟩ := cleanStage_ids_distinct [mixedCand1, mixedCand2]
    (by decide) (by decide) (by decide)
  exact ⟨out, h1, h2.trans rfl, h3⟩

/-! ### C4: normalization invariants -/

/-- C4: every record produced by the normalization stage (shared by
`validateAndCleanTestCases` and `validateAndCleanTestCasesEnhanced`) from
well-typed candidates has a non-empty string id, a non-empty string summary,
and a `testSteps` field that is a single scalar string — never an array —
whether the candidate's steps field was array-typed, string-typed or
absent. -/
theorem cleanStage_normalization_invariants (cands : List JVal)
    (hg : ∀ c ∈ cands, GoodCand c) :
    ∃ out, cleanStage cands = .ok out ∧
      ∀ r ∈ out, (∃ s, r.id = .str s ∧ s ≠ []) ∧
        (∃ s, r.summary = .str s ∧ s ≠ []) ∧
        (∃ s, r.testSteps = .str s) := by
  obtain ⟨out, hout, _, htruthy, _, hinv⟩ := cleanList_good cands 0 hg
  refine ⟨out, ?_, hinv⟩
  unfold cleanStage
  rw [hout]
  show Except.ok (out.filter _) = _
  rw [List.filter_eq_self.mpr htruthy]

/-- Witness for C4 at a batch with one array-typed and one string-typed steps
field; the array is flattened to the newline-joined scalar string. -/
theorem cleanStage_normalization_invariants_witness :
    (∃ out, cleanStage [goodCandArr, goodCandStr] = .ok out ∧
      ∀ r ∈ out, (∃ s, r.id = .str s ∧ s ≠ []) ∧
        (∃ s, r.summary = .str s ∧ s ≠ []) ∧
        (∃ s, r.testSteps = .str s)) ∧
    (cleanStage [goodCandArr, goodCandStr]).map (List.map CleanedTC.testSteps) =
      .ok [.str "one\ntwo".data, .str "do things".data] :=
  ⟨cleanStage_normalization_invariants [goodCandArr, goodCandStr] (by decide), rfl⟩

/-! ### C2: the test-case extractor is total and never returns empty -/

/-- Any record the cleaning map returns has a truthy summary (the synthesized
default is non-empty). -/
theorem cleanOne_summary_truthy {index : Nat} {c : JVal} {r : CleanedTC}
    (h : cleanOne index c = .ok r) : r.summary.truthy = true := by
  have hD : (JVal.str ("Test Case ".data ++ natStr (index + 1))).truthy = true :=
    truthy_str_of_ne_nil (append_ne_nil_left (by decide))
  cases c with
  | null => exact Except.noConfusion h
  | undef => exact Except.noConfusion h
  | obj fs =>
    rw [cleanOne_obj_eq] at h
    injection h with h2
    subst h2
    show (jsOr _ (jsOr _ (.str _))).truthy = true
    rw [jsOr_truthy, jsOr_truthy, hD]
    simp
  | bool b =>
    injection h with h2
    subst h2
    exact hD
  | num n =>
    injection h with h2
    subst h2
    exact hD
  | str s =>
    injection h with h2
    subst h2
    exact hD
  | arr es =>
    injection h with h2
    subst h2
    exact hD

/-- A successful cleaning map keeps the batch length and only produces
records with truthy summaries. -/
theorem cleanList_ok_facts : ∀ (cands : List JVal) (index : Nat) (out : List CleanedTC),
    cleanList index cands = .ok out →
    out.length = cands.length ∧ ∀ r ∈ out, r.summary.truthy = true := by
  intro cands
  induction cands with
  | nil =>
    intro index out h
    injection h with h2
    subst h2
    exact ⟨rfl, by simp⟩
  | cons c cs ih =>
    intro index out h
    simp only [cleanList] at h
    cases hc : cleanOne index c with
    | error e => rw [hc] at h; exact Except.noConfusion h
    | ok r =>
      rw [hc] at h
      rw [show (Except.ok r >>= fun c =>
          cleanList (index + 1) cs >>= fun cs => Except.ok (c :: cs)) =
        (cleanList (index + 1) cs >>= fun rest => Except.ok (r :: rest)) from rfl] at h
      cases hrest : cleanList (index + 1) cs with
      | error e => rw [hrest] at h; exact Except.noConfusion h
      | ok out' =>
        rw [hrest] at h
        injection h with h2
        subst h2
        obtain ⟨hlen, hall⟩ := ih (index + 1) out' hrest
        refine ⟨by simp [hlen], ?_⟩
        intro x hx
        rcases List.mem_cons.mp hx with rfl | hx
        · exact cleanOne_summary_truthy hc
        · exact hall x hx

/-- A successful cleaning stage on a non-empty batch is non-empty: the
summary filter drops nothing. -/
theorem cleanStage_ok_nonempty {cands : List JVal} {out : List CleanedTC}
    (hne : cands ≠ []) (h : cleanStage cands = .ok out) : out ≠ [] := by
  unfold cleanStage at h
  cases hcl : cleanList 0 cands with
  | error e => rw [hcl] at h; exact Except.noConfusion h
  | ok cl =>
    rw [hcl] at h
    obtain ⟨hlen, hall⟩ := cleanList_ok_facts cands 0 cl hcl
    have : (Except.ok (cl.filter (fun tc => tc.summary.truthy)) : Except Unit _) = .ok out := h
    injection this with h2
    rw [List.filter_eq_self.mpr hall] at h2
    subst h2
    intro hc
    subst hc
    simp at hlen
    exact hne (List.length_eq_zero.mp hlen.symm)

/-- One step of the basic duplicate filter only appends to the accepted
list. -/
theorem dedupStepB_mono {st st' : BState} {tc : CleanedTC}
    (h : dedupStepB st tc = .ok st') :
    ∃ l, st'.uniqueCases = st.uniqueCases ++ l := by
  unfold dedupStepB at h
  cases hsum : asStr tc.summary with
  | error e => rw [hsum] at h; exact Except.noConfusion h
  | ok summary =>
    rw [hsum] at h
    cases hsteps : asStr tc.testSteps with
    | error e => rw [hsteps] at h; exact Except.noConfusion h
    | ok steps =>
      rw [hsteps] at h
      have h' : (if st.seenSummaries.contains (jsTrim (jsToLower summary)) = true
          then Except.ok st
          else if (st.seenStepsSignatures.any fun es =>
              fracGtF (calculateSimpleSimilarity (jsTrim (collapseWS (jsToLower steps))) es)
                ⟨85, 100⟩) = true then Except.ok st
          else Except.ok
            { seenSummaries := st.seenSummaries ++ [jsTrim (jsToLower summary)],
              seenStepsSignatures :=
                st.seenStepsSignatures ++ [jsTrim (collapseWS (jsToLower steps))],
              uniqueCases := st.uniqueCases ++ [tc] }) = Except.ok st' := h
      split at h'
      · injection h' with h2; exact ⟨[], by rw [← h2]; simp⟩
      · split at h'
        · injection h' with h2; exact ⟨[], by rw [← h2]; simp⟩
        · injection h' with h2; exact ⟨[tc], by rw [← h2]⟩

/-- The basic duplicate filter only appends to the accepted list. -/
theorem dedupBasicList_mono : ∀ (cl : List CleanedTC) (st final : BState),
    dedupBasicList st cl = .ok final →
    ∃ l, final.uniqueCases = st.uniqueCases ++ l := by
  intro cl
  induction cl with
  | nil =>
    intro st final h
    injection h with h2
    subst h2
    exact ⟨[], by simp⟩
  | cons c cs ih =>
    intro st final h
    simp only [dedupBasicList] at h
    cases hc : dedupStepB st c with
    | error e => rw [hc] at h; exact Except.noConfusion h
    | ok st1 =>
      rw [hc] at h
      obtain ⟨l1, hl1⟩ := dedupStepB_mono hc
      obtain ⟨l2, hl2⟩ := ih st1 final h
      exact ⟨l1 ++ l2, by rw [hl2, hl1, List.append_assoc]⟩

/-- From the empty filter state, the first record is always accepted, so a
successful basic filter run on a non-empty batch is non-empty. -/
theorem dedupBasicList_nonempty {c : CleanedTC} {cs : List CleanedTC} {final : BState}
    (h : dedupBasicList ⟨[], [], []⟩ (c :: cs) = .ok final) :
    final.uniqueCases ≠ [] := by
  simp only [dedupBasicList] at h
  cases hc : dedupStepB ⟨[], [], []⟩ c with
  | error e => rw [hc] at h; exact Except.noConfusion h
  | ok st1 =>
    rw [hc] at h
    have hst1 : st1.uniqueCases = [c] := by
      unfold dedupStepB at hc
      cases hsum : asStr c.summary with
      | error e => rw [hsum] at hc; exact Except.noConfusion hc
      | ok summary =>
        rw [hsum] at hc
        cases hsteps : asStr c.testSteps with
        | error e => rw [hsteps] at hc; exact Except.noConfusion hc
        | ok steps =>
          rw [hsteps] at hc
          injection hc with h2
          rw [← h2]
          simp
    obtain ⟨l, hl⟩ := dedupBasicList_mono cs st1 final h
    rw [hl, hst1]
    simp

/-- A successful run of `validateAndCleanTestCases` on a non-empty parsed
array returns a non-empty list. -/
theorem validateAndCleanTestCases_ok_nonempty {parsed : List JVal}
    {cleaned : List CleanedTC} (hne : parsed ≠ [])
    (h : validateAndCleanTestCases parsed = .ok cleaned) : cleaned ≠ [] := by
  unfold validateAndCleanTestCases at h
  cases hcl : cleanStage parsed with
  | error e => rw [hcl] at h; exact Except.noConfusion h
  | ok out =>
    rw [hcl] at h
    have hout : out ≠ [] := cleanStage_ok_nonempty hne hcl
    cases out with
    | nil => exact absurd rfl hout
    | cons c cs =>
      have h' : (dedupBasicList ⟨[], [], []⟩ (c :: cs) >>=
          fun final => Except.ok final.uniqueCases) = Except.ok cleaned := h
      cases hdd : dedupBasicList ⟨[], [], []⟩ (c :: cs) with
      | error e => rw [hdd] at h'; exact Except.noConfusion h'
      | ok final =>
        rw [hdd] at h'
        injection h' with h2
        rw [← h2]
        exact dedupBasicList_nonempty hdd

/-- Strategy 3 never returns an empty list. -/
theorem parseStrat3_ne (text : JStr) : parseStrat3 text ≠ [] := by
  unfold parseStrat3
  by_cases hm : (manuallyParseTestCases text).length > 0
  · rw [if_pos hm]
    intro hc
    rw [hc] at hm
    simp at hm
  · rw [if_neg hm]
    intro hc
    exact absurd (congrArg List.length hc) (by decide)

/-- Strategy 2 never returns an empty list. -/
theorem parseStrat2_ne (parse : JStr → Option JVal) (text jsonString : JStr) :
    parseStrat2 parse text jsonString ≠ [] := by
  unfold parseStrat2
  split
  · split
    · split
      · refine validateAndCleanTestCases_ok_nonempty ?_ (by assumption)
        intro hc
        simp_all
      · exact parseStrat3_ne text
    · exact parseStrat3_ne text
  · exact parseStrat3_ne text

/-- C2: for every `JSON.parse` oracle and every input text, the test-case
extractor terminates with a non-empty record list (its model is a total
function: every exception of the source is caught and routed to the next
strategy). -/
theorem parseGeminiJSON_nonempty (parse : JStr → Option JVal) (text : JStr) :
    parseGeminiJSON parse text ≠ [] := by
  show (match arrayBounds (stripFences text) with
    | none => getFallbackTestCases
    | some b =>
      match parse (jsonSlice (stripFences text) b) with
      | some (.arr parsed) =>
        if parsed.length > 0 then
          match validateAndCleanTestCases parsed with
          | .ok cleaned => cleaned
          | .error _ => parseStrat2 parse text (jsonSlice (stripFences text) b)
        else parseStrat2 parse text (jsonSlice (stripFences text) b)
      | _ => parseStrat2 parse text (jsonSlice (stripFences text) b)) ≠ []
  split
  · intro hc
    exact absurd (congrArg List.length hc) (by decide)
  · split
    · split
      · split
        · refine validateAndCleanTestCases_ok_nonempty ?_ (by assumption)
          intro hc
          simp_all
        · exact parseStrat2_ne parse text _
      · exact parseStrat2_ne parse text _
    · exact parseStrat2_ne parse text _

/-! ### C5: the step-signature rejection threshold is strict -/

/-- C5 counterexample: a candidate whose steps signature has advanced
similarity exactly 0.75 (hence `≥ 0.75`) to an existing record's signature is
not rejected — the filter compares with strict `> 0.75`. -/
theorem stepsThreshold_counterexample :
    calculateAdvancedSimilarity (sigOf sampleY) (sigOf sampleX) = ⟨3, 4⟩ ∧
    fracGeF (calculateAdvancedSimilarity (sigOf sampleY) (sigOf sampleX)) ⟨75, 100⟩ = true ∧
    validateAndCleanTestCasesEnhanced [toCand sampleY] [toCleaned sampleX] =
      .ok [toCleaned sampleY] :=
  ⟨by decide, by decide, rfl⟩

/-- C5 amended: in the enhanced duplicate filter, a candidate whose steps
signature has advanced similarity strictly greater than 0.75 to some
previously seen steps signature is rejected (the filter state is returned
unchanged), regardless of its other fields. -/
theorem dedupStepE_rejects_similar_steps (st : DState) (tc : CleanedTC)
    (summary steps : JStr) (hsum : tc.summary = .str summary)
    (hsteps : tc.testSteps = .str steps)
    (h : ∃ es ∈ st.seenSteps,
      fracGtF (calculateAdvancedSimilarity (createStepsSignature steps) es)
        ⟨75, 100⟩ = true) :
    dedupStepE st tc = .ok st := by
  have hany : (st.seenSteps.any fun es =>
      fracGtF (calculateAdvancedSimilarity (createStepsSignature steps) es)
        ⟨75, 100⟩) = true := by
    obtain ⟨es, hmem, hgt⟩ := h
    exact List.any_eq_true.mpr ⟨es, hmem, hgt⟩
  unfold dedupStepE
  rw [hsum, hsteps]
  simp only [asStr, bindOk]
  by_cases hk : st.seenSummaries.contains (jsTrim (jsToLower summary)) = true
  · rw [if_pos hk]
  · rw [if_neg hk, if_pos hany]

/-- Witness for the amended C5: `sampleB`'s signature is 0.8-similar to
`sampleA`'s seen signature, so the step rejects it and leaves the state
unchanged. -/
theorem dedupStepE_rejects_similar_steps_witness :
    dedupStepE stateWithA (toCleaned sampleB) = .ok stateWithA :=
  dedupStepE_rejects_similar_steps stateWithA (toCleaned sampleB) _ _ rfl rfl
    ⟨sigOf sampleA, by decide, by decide⟩

/-! ### C6: summary-duplicate rejection -/

/-- A string-method call succeeds exactly on strings. -/
theorem asStr_ok {v : JVal} {s : JStr} (h : asStr v = .ok s) : v = .str s := by
  cases v <;> simp [asStr] at h
  rw [h]

/-- Invariant of the enhanced filter state: every accepted record's summary
key is recorded in the seen set, and accepted records have pairwise distinct
summary keys. -/
def keyInv (st : DState) : Prop :=
  (∀ u ∈ st.uniqueCases, ∀ su, u.summary = .str su →
    jsTrim (jsToLower su) ∈ st.seenSummaries) ∧
  st.uniqueCases.Pairwise summaryKeyNe

/-- Seeding an existing record preserves the key invariant (the accepted
list is untouched and the seen set only grows). -/
theorem seedOne_keyInv {st st' : DState} {tc : CleanedTC}
    (hinv : keyInv st) (h : seedOne st tc = .ok st') : keyInv st' := by
  unfold seedOne at h
  cases hsum : asStr tc.summary with
  | error e => rw [hsum] at h; exact Except.noConfusion h
  | ok summary =>
    rw [hsum] at h
    cases hsteps : asStr tc.testSteps with
    | error e => rw [hsteps] at h; exact Except.noConfusion h
    | ok steps =>
      rw [hsteps] at h
      injection h with h2
      subst h2
      refine ⟨?_, hinv.2⟩
      intro u hu su hsu
      exact List.mem_append_left _ (hinv.1 u hu su hsu)

/-- Seeding a list of existing records preserves the key invariant. -/
theorem seedAll_keyInv : ∀ (ex : List CleanedTC) {st st' : DState},
    keyInv st → seedAll st ex = .ok st' → keyInv st' := by
  intro ex
  induction ex with
  | nil =>
    intro st st' hinv h
    injection h with h2
    subst h2
    exact hinv
  | cons tc rest ih =>
    intro st st' hinv h
    simp only [seedAll] at h
    cases hc : seedOne st tc with
    | error e => rw [hc] at h; exact Except.noConfusion h
    | ok st1 =>
      rw [hc] at h
      exact ih (seedOne_keyInv hinv hc) h

/-- One step of the enhanced filter preserves the key invariant: a record is
accepted only when its summary key is absent from the seen set, so accepted
records never share a key. -/
theorem dedupStepE_keyInv {st st' : DState} {tc : CleanedTC}
    (hinv : keyInv st) (h : dedupStepE st tc = .ok st') : keyInv st' := by
  unfold dedupStepE at h
  cases hsum : asStr tc.summary with
  | error e => rw [hsum] at h; exact Except.noConfusion h
  | ok summary =>
    rw [hsum] at h
    cases hsteps : asStr tc.testSteps with
    | error e => rw [hsteps] at h; exact Except.noConfusion h
    | ok steps =>
      rw [hsteps] at h
      simp only [bindOk] at h
      by_cases hk : st.seenSummaries.contains (jsTrim (jsToLower summary)) = true
      · rw [if_pos hk] at h
        injection h with h2
        subst h2
        exact hinv
      · rw [if_neg hk] at h
        split at h
        · injection h with h2
          subst h2
          exact hinv
        · split at h
          · injection h with h2
            subst h2
            exact hinv
          · cases hc4 : check4 (createStepsSignature steps) (extractTestPurpose summary)
                st.uniqueCases with
            | error e => rw [hc4] at h; exact Except.noConfusion h
            | ok dup =>
              rw [hc4] at h
              simp only [bindOk] at h
              cases dup with
              | true =>
                rw [if_pos rfl] at h
                injection h with h2
                subst h2
                exact hinv
              | false =>
                rw [if_neg (by simp)] at h
                injection h with h2
                subst h2
                have htc : tc.summary = .str summary := asStr_ok hsum
                have hnotin : jsTrim (jsToLower summary) ∉ st.seenSummaries := by
                  intro hmem
                  exact hk (List.elem_iff.mpr hmem)
                constructor
                · intro u hu su hsu
                  rcases List.mem_append.mp hu with hu | hu
                  · exact List.mem_append_left _ (hinv.1 u hu su hsu)
                  · rw [List.mem_singleton.mp hu] at hsu
                    rw [htc] at hsu
                    injection hsu with hs
                    subst hs
                    exact List.mem_append_right _ (List.mem_singleton.mpr rfl)
                · rw [List.pairwise_append]
                  refine ⟨hinv.2, by simp [summaryKeyNe], ?_⟩
                  intro u hu v hv
                  rw [List.mem_singleton.mp hv]
                  intro su sv hsu hsv
                  rw [htc] at hsv
                  injection hsv with hs
                  subst hs
                  intro hkeq
                  apply hnotin
                  rw [← hkeq]
                  exact hinv.1 u hu su hsu

/-- The enhanced filter loop preserves the key invariant. -/
theorem dedupEnhancedList_keyInv : ∀ (cl : List CleanedTC) {st final : DState},
    keyInv st → dedupEnhancedList st cl = .ok final → keyInv final := by
  intro cl
  induction cl with
  | nil =>
    intro st final hinv h
    injection h with h2
    subst h2
    exact hinv
  | cons c cs ih =>
    intro st final hinv h
    simp only [dedupEnhancedList] at h
    cases hc : dedupStepE st c with
    | error e => rw [hc] at h; exact Except.noConfusion h
    | ok st1 =>
      rw [hc] at h
      exact ih (dedupStepE_keyInv hinv hc) h

/-- C6 counterexample: `sampleB` and `sampleC` have literally identical
summaries, `sampleC` comes later, yet `sampleC` survives the filter —
because `sampleB` was itself rejected (for step similarity to `sampleA`) and
so never entered the seen-summaries set. -/
theorem laterDuplicate_survives_counterexample :
    sampleB.summary = sampleC.summary ∧
    validateAndCleanTestCasesEnhanced
      [toCand sampleA, toCand sampleB, toCand sampleC] [] =
      .ok [toCleaned sampleA, toCleaned sampleC] :=
  ⟨rfl, rfl⟩

/-- C6 amended: among the records the enhanced filter returns, summary keys
(lower-cased, trimmed) are pairwise distinct: of two batch records with
identical keys at most one survives, and whenever the earlier one survives
the later one is rejected; but if the earlier was itself rejected for another
reason, the later may survive. -/
theorem enhanced_survivor_keys_distinct (testCases : List JVal)
    (existingTestCases : List CleanedTC) (out : List CleanedTC)
    (h : validateAndCleanTestCasesEnhanced testCases existingTestCases = .ok out) :
    out.Pairwise summaryKeyNe := by
  unfold validateAndCleanTestCasesEnhanced at h
  cases hcl : cleanStage testCases with
  | error e => rw [hcl] at h; exact Except.noConfusion h
  | ok cleaned =>
    rw [hcl] at h
    simp only [bindOk] at h
    cases hseed : seedAll ⟨[], [], [], []⟩ existingTestCases with
    | error e => rw [hseed] at h; exact Except.noConfusion h
    | ok st0 =>
      rw [hseed] at h
      simp only [bindOk] at h
      cases hdd : dedupEnhancedList st0 cleaned with
      | error e => rw [hdd] at h; exact Except.noConfusion h
      | ok final =>
        rw [hdd] at h
        injection h with h2
        subst h2
        have hinv0 : keyInv ⟨[], [], [], []⟩ := ⟨by simp, by simp⟩
        exact (dedupEnhancedList_keyInv cleaned
          (seedAll_keyInv existingTestCases hinv0 hseed) hdd).2

/-- Witness for the amended C6 on the counterexample batch: the two
survivors have distinct summary keys. -/
theorem enhanced_survivor_keys_distinct_witness :
    ([toCleaned sampleA, toCleaned sampleC] : List CleanedTC).Pairwise summaryKeyNe :=
  enhanced_survivor_keys_distinct
    [toCand sampleA, toCand sampleB, toCand sampleC] [] _ rfl

/-! ### C1: two-phase filtering versus cumulative filtering -/

/-- The expression `undefined || b` evaluates to `b`. -/
theorem jsOr_undef (b : JVal) : jsOr .undef b = b := rfl

/-- A truthy string wins `a || b`. -/
theorem jsOr_str_truthy {s : JStr} (h : s ≠ []) (b : JVal) :
    jsOr (.str s) b = .str s := by
  unfold jsOr
  rw [if_pos (truthy_str_of_ne_nil h)]

/-- The expression `s || ''` evaluates to `s` for every string `s`. -/
theorem jsOr_str_self (s : JStr) : jsOr (.str s) (.str []) = .str s := by
  by_cases h : s = []
  · subst h; rfl
  · exact jsOr_str_truthy h _

/-- The cleaning map is the identity on a normalized record (at any
position): all default-triggering fields are non-empty. -/
theorem cleanOne_norm (i : Nat) (r : NormTC) (h : NormInv r) :
    cleanOne i (toCand r) = .ok (toCleaned r) := by
  obtain ⟨hid, hsum, htct, henv, hst⟩ := h
  have g1 : getProp (toCand r) "testSteps".data = .ok (.str r.testSteps) := rfl
  have g2 : getProp (toCand r) "steps".data = .ok .undef := rfl
  have g3 : getProp (toCand r) "id".data = .ok (.str r.id) := rfl
  have g4 : getProp (toCand r) "module".data = .ok (.str r.module) := rfl
  have g5 : getProp (toCand r) "submodule".data = .ok (.str r.submodule) := rfl
  have g6 : getProp (toCand r) "summary".data = .ok (.str r.summary) := rfl
  have g7 : getProp (toCand r) "title".data = .ok .undef := rfl
  have g8 : getProp (toCand r) "expectedResults".data = .ok (.str r.expectedResults) := rfl
  have g9 : getProp (toCand r) "expectedResult".data = .ok .undef := rfl
  have g10 : getProp (toCand r) "testCaseType".data = .ok (.str r.testCaseType) := rfl
  have g11 : getProp (toCand r) "environment".data = .ok (.str r.environment) := rfl
  have g12 : getProp (toCand r) "status".data = .ok (.str r.status) := rfl
  unfold cleanOne
  simp only [g1, g2, g3, g4, g5, g6, g7, g8, g9, g10, g11, g12, bindOk, bindPure]
  by_cases hts : r.testSteps = []
  · rw [hts]
    simp only [show (JVal.str []).truthy = false from rfl, Bool.false_eq_true,
      if_false, bindOk]
    simp only [jsOr_str_truthy hid, jsOr_str_truthy hsum, jsOr_str_truthy htct,
      jsOr_str_truthy henv, jsOr_str_truthy hst, jsOr_undef, jsOr_str_self,
      toCleaned, hts]
  · simp only [truthy_str_of_ne_nil hts, if_true, bindPure]
    simp only [jsOr_str_truthy hid, jsOr_str_truthy hsum, jsOr_str_truthy htct,
      jsOr_str_truthy henv, jsOr_str_truthy hst, jsOr_undef, jsOr_str_self,
      toCleaned]

/-- The cleaning stage is the identity on a batch of normalized records. -/
theorem cleanList_norm : ∀ (X : List NormTC) (i : Nat), (∀ r ∈ X, NormInv r) →
    cleanList i (X.map toCand) = .ok (X.map toCleaned) := by
  intro X
  induction X with
  | nil => intro i _; rfl
  | cons r rs ih =>
    intro i h
    simp only [List.map_cons, cleanList]
    rw [cleanOne_norm i r (h r (List.mem_cons_self _ _)), bindOk,
      ih (i + 1) (fun x hx => h x (List.mem_cons_of_mem _ hx)), bindOk]

/-- The cleaning stage (with its summary filter) is the identity on a batch
of normalized records. -/
theorem cleanStage_norm (X : List NormTC) (h : ∀ r ∈ X, NormInv r) :
    cleanStage (X.map toCand) = .ok (X.map toCleaned) := by
  unfold cleanStage
  rw [cleanList_norm X 0 h, bindOk]
  congr 1
  rw [List.filter_eq_self]
  intro r hr
  obtain ⟨x, hx, rfl⟩ := List.mem_map.mp hr
  exact truthy_str_of_ne_nil (h x hx).2.1

/-- Seeding from lifted normalized records appends their keys, signatures and
purposes, leaving the accepted list untouched. -/
theorem seedAll_norm : ∀ (E : List NormTC) (a b c : List JStr) (u : List CleanedTC),
    seedAll ⟨a, b, c, u⟩ (E.map toCleaned) =
      .ok ⟨a ++ E.map keyOf, b ++ E.map sigOf, c ++ E.map purpOf, u⟩ := by
  intro E
  induction E with
  | nil => intro a b c u; simp [seedAll]
  | cons e es ih =>
    intro a b c u
    simp only [List.map_cons, seedAll]
    have h1 : seedOne ⟨a, b, c, u⟩ (toCleaned e) =
        .ok ⟨a ++ [keyOf e], b ++ [sigOf e], c ++ [purpOf e], u⟩ := rfl
    rw [h1, bindOk, ih]
    simp [List.append_assoc]

/-- Check 4 over lifted records computes the pure disjunction scan. -/
theorem check4_sim : ∀ (us : List NormTC) (sig purp : JStr),
    check4 sig purp (us.map toCleaned) = .ok (us.any fun u =>
      fracGtF (calculateAdvancedSimilarity sig (sigOf u)) ⟨70, 100⟩ ||
      fracGtF (calculatePurposeSimilarity purp (purpOf u)) ⟨70, 100⟩) := by
  intro us
  induction us with
  | nil => intro sig purp; rfl
  | cons u rest ih =>
    intro sig purp
    simp only [List.map_cons, check4, List.any_cons]
    have hsteps : asStr (toCleaned u).testSteps = .ok u.testSteps := rfl
    have hsumm : asStr (toCleaned u).summary = .ok u.summary := rfl
    rw [hsteps, bindOk]
    by_cases h1 : fracGtF (calculateAdvancedSimilarity sig
        (createStepsSignature u.testSteps)) ⟨70, 100⟩ = true
    · rw [if_pos h1]
      have : fracGtF (calculateAdvancedSimilarity sig (sigOf u)) ⟨70, 100⟩ = true := h1
      rw [this]
      rfl
    · rw [if_neg h1]
      rw [hsumm, bindOk]
      by_cases h2 : fracGtF (calculatePurposeSimilarity purp
          (extractTestPurpose u.summary)) ⟨70, 100⟩ = true
      · rw [if_pos h2]
        have h1' : fracGtF (calculateAdvancedSimilarity sig (sigOf u)) ⟨70, 100⟩ = false :=
          Bool.not_eq_true _ ▸ eq_false_of_ne_true h1
        have h2' : fracGtF (calculatePurposeSimilarity purp (purpOf u)) ⟨70, 100⟩ = true := h2
        rw [h1', h2']
        rfl
      · rw [if_neg h2, ih]
        have h1' : fracGtF (calculateAdvancedSimilarity sig (sigOf u)) ⟨70, 100⟩ = false :=
          eq_false_of_ne_true h1
        have h2' : fracGtF (calculatePurposeSimilarity purp (purpOf u)) ⟨70, 100⟩ = false :=
          eq_false_of_ne_true h2
        rw [h1', h2']
        simp

/-- One step of the enhanced filter over lifted records computes the pure
step. -/
theorem dedupStepE_sim (p : PState) (r : NormTC) :
    dedupStepE (liftState p) (toCleaned r) = .ok (liftState (pureStep p r)) := by
  unfold dedupStepE
  have hsumm : asStr (toCleaned r).summary = .ok r.summary := rfl
  have hsteps : asStr (toCleaned r).testSteps = .ok r.testSteps := rfl
  rw [hsumm, bindOk, hsteps, bindOk]
  show (if (liftState p).seenSummaries.contains (keyOf r) = true then _ else _) = _
  unfold pureStep liftState
  by_cases h1 : p.sums.contains (keyOf r) = true
  · rw [if_pos h1, if_pos h1]
  · rw [if_neg h1, if_neg h1]
    show (if (p.sigs.any fun es => fracGtF (calculateAdvancedSimilarity (sigOf r) es)
        ⟨75, 100⟩) = true then _ else _) = _
    by_cases h2 : (p.sigs.any fun es =>
        fracGtF (calculateAdvancedSimilarity (sigOf r) es) ⟨75, 100⟩) = true
    · rw [if_pos h2, if_pos h2]
    · rw [if_neg h2, if_neg h2]
      show (if (p.purps.any fun ep => fracGtF (calculatePurposeSimilarity (purpOf r) ep)
          ⟨70, 100⟩) = true then _ else _) = _
      by_cases h3 : (p.purps.any fun ep =>
          fracGtF (calculatePurposeSimilarity (purpOf r) ep) ⟨70, 100⟩) = true
      · rw [if_pos h3, if_pos h3]
      · rw [if_neg h3, if_neg h3]
        rw [check4_sim, bindOk]
        by_cases h4 : (p.unique.any fun u =>
            fracGtF (calculateAdvancedSimilarity (createStepsSignature r.testSteps)
              (sigOf u)) ⟨70, 100⟩ ||
            fracGtF (calculatePurposeSimilarity (extractTestPurpose r.summary)
              (purpOf u)) ⟨70, 100⟩) = true
        · have h4' : (p.unique.any fun u =>
              fracGtF (calculateAdvancedSimilarity (sigOf r) (sigOf u)) ⟨70, 100⟩ ||
              fracGtF (calculatePurposeSimilarity (purpOf r) (purpOf u)) ⟨70, 100⟩) = true := h4
          rw [if_pos h4, if_pos h4']
        · have h4' : ¬ (p.unique.any fun u =>
              fracGtF (calculateAdvancedSimilarity (sigOf r) (sigOf u)) ⟨70, 100⟩ ||
              fracGtF (calculatePurposeSimilarity (purpOf r) (purpOf u)) ⟨70, 100⟩) = true := h4
          rw [if_neg h4, if_neg h4']
          simp [List.map_append, keyOf, sigOf, purpOf]

/-- The enhanced filter loop over lifted records computes the pure fold. -/
theorem dedupEnhancedList_sim : ∀ (Y : List NormTC) (p : PState),
    dedupEnhancedList (liftState p) (Y.map toCleaned) =
      .ok (liftState (Y.foldl pureStep p)) := by
  intro Y
  induction Y with
  | nil => intro p; rfl
  | cons y ys ih =>
    intro p
    simp only [List.map_cons, dedupEnhancedList, List.foldl_cons]
    rw [dedupStepE_sim, bindOk, ih]

/-- Running `validateAndCleanTestCasesEnhanced` on normalized batches computes the
pure filter. -/
theorem enhanced_norm (X E : List NormTC) (h : ∀ r ∈ X, NormInv r) :
    validateAndCleanTestCasesEnhanced (X.map toCand) (E.map toCleaned) =
      .ok ((pureRun E X).map toCleaned) := by
  unfold validateAndCleanTestCasesEnhanced
  rw [cleanStage_norm X h, bindOk]
  have hseed : seedAll ⟨[], [], [], []⟩ (E.map toCleaned) =
      .ok (liftState (pureSeed E)) := by
    rw [seedAll_norm E [] [] [] []]
    rfl
  rw [hseed, bindOk, dedupEnhancedList_sim X (pureSeed E), bindOk]
  rfl

/-- A pure filter step either rejects (state unchanged) or accepts
(appending to all four components). -/
theorem pureStep_eq_or (p : PState) (r : NormTC) :
    pureStep p r = p ∨ pureStep p r =
      ⟨p.sums ++ [keyOf r], p.sigs ++ [sigOf r], p.purps ++ [purpOf r],
       p.unique ++ [r]⟩ := by
  unfold pureStep
  split
  · exact Or.inl rfl
  · split
    · exact Or.inl rfl
    · split
      · exact Or.inl rfl
      · split
        · exact Or.inl rfl
        · exact Or.inr rfl

/-- Along a run started from an empty or self-built state, the three seen
lists are exactly the keys, signatures and purposes of the accepted
records. -/
theorem foldl_coherent : ∀ (X : List NormTC) (p : PState),
    p.sums = p.unique.map keyOf → p.sigs = p.unique.map sigOf →
    p.purps = p.unique.map purpOf →
    (X.foldl pureStep p).sums = (X.foldl pureStep p).unique.map keyOf ∧
    (X.foldl pureStep p).sigs = (X.foldl pureStep p).unique.map sigOf ∧
    (X.foldl pureStep p).purps = (X.foldl pureStep p).unique.map purpOf := by
  intro X
  induction X with
  | nil => exact fun p h1 h2 h3 => ⟨h1, h2, h3⟩
  | cons x xs ih =>
    intro p h1 h2 h3
    rw [List.foldl_cons]
    rcases pureStep_eq_or p x with heq | heq <;> rw [heq]
    · exact ih p h1 h2 h3
    · exact ih _ (by simp [h1]) (by simp [h2]) (by simp [h3])

/-- The state after filtering a batch from scratch, in terms of the
survivors. -/
theorem stateAfter_eq (X : List NormTC) :
    X.foldl pureStep (pureSeed []) =
      ⟨(pureRun [] X).map keyOf, (pureRun [] X).map sigOf,
       (pureRun [] X).map purpOf, pureRun [] X⟩ := by
  obtain ⟨h1, h2, h3⟩ := foldl_coherent X (pureSeed []) rfl rfl rfl
  have heta : X.foldl pureStep (pureSeed []) =
      ⟨(X.foldl pureStep (pureSeed [])).sums, (X.foldl pureStep (pureSeed [])).sigs,
       (X.foldl pureStep (pureSeed [])).purps,
       (X.foldl pureStep (pureSeed [])).unique⟩ := rfl
  rw [heta, h1, h2, h3]
  rfl

/-- Core of the amended C1: running the pure filter over `Y` from the full
state left by `X` (accepted records `U` still in the within-batch list)
yields `U` followed by the survivors of running `Y` against the seeded state,
provided no record of `Y` has steps similarity in the gap interval
`(0.70, 0.75]` with a record of `U`. -/
theorem pureRun_two_phase : ∀ (Y : List NormTC) (sd : PState) (U : List NormTC),
    (∀ x ∈ U, sigOf x ∈ sd.sigs ∧ purpOf x ∈ sd.purps) →
    (∀ y ∈ Y, ∀ x ∈ U,
      fracGtF (calculateAdvancedSimilarity (sigOf y) (sigOf x)) ⟨70, 100⟩ = true →
      fracGtF (calculateAdvancedSimilarity (sigOf y) (sigOf x)) ⟨75, 100⟩ = true) →
    (Y.foldl pureStep ⟨sd.sums, sd.sigs, sd.purps, U ++ sd.unique⟩).unique =
      U ++ (Y.foldl pureStep sd).unique := by
  intro Y
  induction Y with
  | nil => intro sd U _ _; rfl
  | cons y ys ih =>
    intro sd U hU hH
    obtain ⟨sa, sb, sc, su⟩ := sd
    simp only at hU
    rw [List.foldl_cons, List.foldl_cons]
    have hHy := hH y (List.mem_cons_self _ _)
    have hHys : ∀ y' ∈ ys, ∀ x ∈ U,
        fracGtF (calculateAdvancedSimilarity (sigOf y') (sigOf x)) ⟨70, 100⟩ = true →
        fracGtF (calculateAdvancedSimilarity (sigOf y') (sigOf x)) ⟨75, 100⟩ = true :=
      fun y' hy' => hH y' (List.mem_cons_of_mem _ hy')
    show (ys.foldl pureStep (pureStep ⟨sa, sb, sc, U ++ su⟩ y)).unique =
      U ++ (ys.foldl pureStep (pureStep ⟨sa, sb, sc, su⟩ y)).unique
    unfold pureStep
    by_cases h1 : sa.contains (keyOf y) = true
    · simp only [h1, if_true]
      exact ih ⟨sa, sb, sc, su⟩ U hU hHys
    · simp only [h1, Bool.false_eq_true, if_false]
      by_cases h2 : (sb.any fun es =>
          fracGtF (calculateAdvancedSimilarity (sigOf y) es) ⟨75, 100⟩) = true
      · simp only [h2, if_true]
        exact ih ⟨sa, sb, sc, su⟩ U hU hHys
      · simp only [h2, Bool.false_eq_true, if_false]
        by_cases h3 : (sc.any fun ep =>
            fracGtF (calculatePurposeSimilarity (purpOf y) ep) ⟨70, 100⟩) = true
        · simp only [h3, if_true]
          exact ih ⟨sa, sb, sc, su⟩ U hU hHys
        · simp only [h3, Bool.false_eq_true, if_false]
          have hUany : (U.any fun u =>
              fracGtF (calculateAdvancedSimilarity (sigOf y) (sigOf u)) ⟨70, 100⟩ ||
              fracGtF (calculatePurposeSimilarity (purpOf y) (purpOf u)) ⟨70, 100⟩) = false := by
            rw [Bool.eq_false_iff]
            intro hc
            obtain ⟨x, hx, hPx⟩ := List.any_eq_true.mp hc
            rcases Bool.or_eq_true_iff.mp hPx with hs | hp
            · have h75 := hHy x hx hs
              apply h2
              exact List.any_eq_true.mpr ⟨sigOf x, (hU x hx).1, h75⟩
            · apply h3
              exact List.any_eq_true.mpr ⟨purpOf x, (hU x hx).2, hp⟩
          have happ : ((U ++ su).any fun u =>
              fracGtF (calculateAdvancedSimilarity (sigOf y) (sigOf u)) ⟨70, 100⟩ ||
              fracGtF (calculatePurposeSimilarity (purpOf y) (purpOf u)) ⟨70, 100⟩) =
              (su.any fun u =>
              fracGtF (calculateAdvancedSimilarity (sigOf y) (sigOf u)) ⟨70, 100⟩ ||
              fracGtF (calculatePurposeSimilarity (purpOf y) (purpOf u)) ⟨70, 100⟩) := by
            rw [List.any_append, hUany, Bool.false_or]
          rw [happ]
          by_cases h4 : (su.any fun u =>
              fracGtF (calculateAdvancedSimilarity (sigOf y) (sigOf u)) ⟨70, 100⟩ ||
              fracGtF (calculatePurposeSimilarity (purpOf y) (purpOf u)) ⟨70, 100⟩) = true
          · simp only [h4, if_true]
            exact ih ⟨sa, sb, sc, su⟩ U hU hHys
          · simp only [h4, Bool.false_eq_true, if_false]
            have hassoc : (U ++ su) ++ [y] = U ++ (su ++ [y]) := List.append_assoc U su [y]
            rw [hassoc]
            exact ih ⟨sa ++ [keyOf y], sb ++ [sigOf y], sc ++ [purpOf y], su ++ [y]⟩ U
              (fun x hx => ⟨List.mem_append_left _ (hU x hx).1,
                List.mem_append_left _ (hU x hx).2⟩) hHys

/-- Under the gap-interval hypothesis, cumulative filtering of `X ++ Y`
splits into the survivors of `X` followed by the survivors of `Y` filtered
against those survivors as existing records. -/
theorem pureRun_append (X Y : List NormTC)
    (H : ∀ y ∈ Y, ∀ x ∈ pureRun [] X,
      fracGtF (calculateAdvancedSimilarity (sigOf y) (sigOf x)) ⟨70, 100⟩ = true →
      fracGtF (calculateAdvancedSimilarity (sigOf y) (sigOf x)) ⟨75, 100⟩ = true) :
    pureRun [] (X ++ Y) = pureRun [] X ++ pureRun (pureRun [] X) Y := by
  show ((X ++ Y).foldl pureStep (pureSeed [])).unique = _
  rw [List.foldl_append, stateAfter_eq X]
  have h2 := pureRun_two_phase Y (pureSeed (pureRun [] X)) (pureRun [] X)
    (fun x hx => ⟨List.mem_map_of_mem _ hx, List.mem_map_of_mem _ hx⟩) H
  simp only [pureSeed] at h2
  rw [List.append_nil] at h2
  exact h2

/-- C1 (corrected). Two-phase filtering equals cumulative filtering only
under a side condition: the claimed equivalence between running
`validateAndCleanTestCasesEnhanced` on `X` then on `Y` with the survivors
of `X` as existing records, and running it once on `X ++ Y`, holds whenever
no record of `Y` has a steps similarity in the gap interval (0.70, 0.75]
with a survivor of `X` (the within-batch uniqueness check compares steps
with threshold > 0.70 while the cross-batch check uses > 0.75, so the gap
breaks the equivalence in general, as the counterexample shows). Under
that hypothesis the survivors of `Y` in the two-phase run coincide with
the tail of the cumulative run past the survivors of `X`. -/
theorem enhanced_two_phase_eq_cumulative (X Y : List NormTC)
    (hX : ∀ r ∈ X, NormInv r) (hY : ∀ r ∈ Y, NormInv r)
    (H : ∀ y ∈ Y, ∀ x ∈ pureRun [] X,
      fracGtF (calculateAdvancedSimilarity (sigOf y) (sigOf x)) ⟨70, 100⟩ = true →
      fracGtF (calculateAdvancedSimilarity (sigOf y) (sigOf x)) ⟨75, 100⟩ = true) :
    validateAndCleanTestCasesEnhanced (X.map toCand) [] =
      .ok ((pureRun [] X).map toCleaned) ∧
    validateAndCleanTestCasesEnhanced (Y.map toCand) ((pureRun [] X).map toCleaned) =
      .ok ((pureRun (pureRun [] X) Y).map toCleaned) ∧
    validateAndCleanTestCasesEnhanced ((X ++ Y).map toCand) [] =
      .ok ((pureRun [] X ++ pureRun (pureRun [] X) Y).map toCleaned) ∧
    ((pureRun [] X ++ pureRun (pureRun [] X) Y).map toCleaned).drop
        ((pureRun [] X).map toCleaned).length =
      (pureRun (pureRun [] X) Y).map toCleaned := by
  refine ⟨enhanced_norm X [] hX, enhanced_norm Y (pureRun [] X) hY, ?_, ?_⟩
  · have h := enhanced_norm (X ++ Y) []
      (fun r hr => (List.mem_append.mp hr).elim (hX r) (hY r))
    rw [pureRun_append X Y H] at h
    exact h
  · rw [List.map_append]
    exact List.drop_left _ _

/-- Counterexample to the unconditional C1: with `sampleY`'s steps exactly
0.75-similar to `sampleX`'s, the cumulative run on both records rejects
`sampleY` (within-batch threshold > 0.70), while the two-phase run accepts
it (cross-batch threshold > 0.75), so the tail of the cumulative output
differs from the second phase's output. -/
theorem twoPhase_counterexample :
    validateAndCleanTestCasesEnhanced [toCand sampleX, toCand sampleY] [] =
      .ok [toCleaned sampleX] ∧
    validateAndCleanTestCasesEnhanced [toCand sampleX] [] =
      .ok [toCleaned sampleX] ∧
    validateAndCleanTestCasesEnhanced [toCand sampleY] [toCleaned sampleX] =
      .ok [toCleaned sampleY] ∧
    [toCleaned sampleX].drop ([toCleaned sampleX] : List CleanedTC).length ≠
      [toCleaned sampleY] := by
  refine ⟨rfl, rfl, rfl, ?_⟩
  intro hc
  exact absurd (congrArg List.length hc) (by decide)

/-- Concrete instantiation of the corrected C1 theorem: batches
`[sampleX]` and `[sampleW]` with zero steps similarity between them,
discharging every hypothesis. -/
theorem enhanced_two_phase_eq_cumulative_witness :
    ((∀ r ∈ [sampleX], NormInv r) ∧ (∀ r ∈ [sampleW], NormInv r) ∧
      (∀ y ∈ [sampleW], ∀ x ∈ pureRun [] [sampleX],
        fracGtF (calculateAdvancedSimilarity (sigOf y) (sigOf x)) ⟨70, 100⟩ = true →
        fracGtF (calculateAdvancedSimilarity (sigOf y) (sigOf x)) ⟨75, 100⟩ = true)) ∧
    (validateAndCleanTestCasesEnhanced ([sampleX].map toCand) [] =
        .ok ((pureRun [] [sampleX]).map toCleaned) ∧
      validateAndCleanTestCasesEnhanced ([sampleW].map toCand)
          ((pureRun [] [sampleX]).map toCleaned) =
        .ok ((pureRun (pureRun [] [sampleX]) [sampleW]).map toCleaned) ∧
      validateAndCleanTestCasesEnhanced (([sampleX] ++ [sampleW]).map toCand) [] =
        .ok ((pureRun [] [sampleX] ++
          pureRun (pureRun [] [sampleX]) [sampleW]).map toCleaned) ∧
      ((pureRun [] [sampleX] ++
          pureRun (pureRun [] [sampleX]) [sampleW]).map toCleaned).drop
          ((pureRun [] [sampleX]).map toCleaned).length =
        (pureRun (pureRun [] [sampleX]) [sampleW]).map toCleaned) := by
  have hx : ∀ r ∈ [sampleX], NormInv r := by
    intro r hr
    simp only [List.mem_singleton] at hr
    subst hr
    exact ⟨by decide, by decide, by decide, by decide, by decide⟩
  have hw : ∀ r ∈ [sampleW], NormInv r := by
    intro r hr
    simp only [List.mem_singleton] at hr
    subst hr
    exact ⟨by decide, by decide, by decide, by decide, by decide⟩
  have hg : ∀ y ∈ [sampleW], ∀ x ∈ pureRun [] [sampleX],
      fracGtF (calculateAdvancedSimilarity (sigOf y) (sigOf x)) ⟨70, 100⟩ = true →
      fracGtF (calculateAdvancedSimilarity (sigOf y) (sigOf x)) ⟨75, 100⟩ = true := by
    decide
  exact ⟨⟨hx, hw, hg⟩,
    enhanced_two_phase_eq_cumulative [sampleX] [sampleW] hx hw hg⟩
